import Mathlib

/-!
Verification of the SameGameSFCSmall solver library against its
natural-language specification.

Shallow embedding conventions:
* machine integers (`u8`, `u16`, `u64`, `usize`) are `Nat` with explicit
  reductions `% 2^8`, `% 2^16`, `% 2^64` where the Rust code wraps;
* squares are 0-based indices `0..47` (column-major: index = 6*col + row,
  columns 0..7 left to right, rows 0..5 bottom to top), pieces are the
  inner values `1..5` of `piece.rs`;
* `board.rs` is declared in `lib.rs` but its source is not present; the
  board data type and its operations are modelled from the specification
  (sections 3, 4.1, 4.2) and are marked `Modelled from the spec:` below.
-/

set_option maxRecDepth 8000

namespace SameGame

/-! ### RNG (src/src/rng.rs) -/

/-- One step of `GameRng::gen` (src/src/rng.rs lines 29-36): the state is a
16-bit word, the counter an 8-bit byte; shifts wrap in 16-bit arithmetic.
Returns (output byte, new state). -/
def rngGen (s c : Nat) : Nat × Nat :=
  let bit := ((s >>> 14) ^^^ s) &&& 1
  let s1 := s ^^^ (((s <<< 8) % 65536) ||| c)
  let s2 := ((s1 <<< 1) % 65536) ||| bit
  ((s2 ^^^ (s2 >>> 8)) % 256, s2)

/-- `GameRng::gen_piece` (src/src/rng.rs lines 38-42): draws a byte and maps
it to a piece value; the multiply is 16-bit (no wrap can occur), the final
cast and addition are 8-bit. Returns (piece value, new state). -/
def rngGenPiece (s c : Nat) : Nat × Nat :=
  let r := rngGen s c
  ((1 + (((5 * r.1) >>> 8) % 256)) % 256, r.2)

/-! ### Scoring (src/src/score.rs) -/

/-- `score_erase` (src/src/score.rs lines 16-20): the score for erasing `n`
pieces in one action; the caller guarantees `n >= 2`. -/
def scoreErase (n : Nat) : Nat := (n - 1) ^ 2

/-- `SCORE_PERFECT` (src/src/score.rs line 11). -/
def scorePerfect : Nat := 200

/-- Total score of a capture sequence given the per-step capture sizes and
whether the final board is empty (spec section 4.7). -/
def totalScore (sizes : List Nat) (finalEmpty : Bool) : Nat :=
  (sizes.map scoreErase).sum + (if finalEmpty then scorePerfect else 0)

/-! ### Bitwise helper lemmas -/

theorem mod_pow2_xor (a b k : Nat) : (a ^^^ b) % 2 ^ k = (a % 2 ^ k) ^^^ (b % 2 ^ k) := by
  rw [← Nat.and_pow_two_sub_one_eq_mod, ← Nat.and_pow_two_sub_one_eq_mod,
    ← Nat.and_pow_two_sub_one_eq_mod, Nat.and_xor_distrib_right]

theorem mod_pow2_or (a b k : Nat) : (a ||| b) % 2 ^ k = (a % 2 ^ k) ||| (b % 2 ^ k) := by
  rw [← Nat.and_pow_two_sub_one_eq_mod, ← Nat.and_pow_two_sub_one_eq_mod,
    ← Nat.and_pow_two_sub_one_eq_mod, Nat.and_comm, Nat.and_or_distrib_left,
    Nat.and_comm (2 ^ k - 1) a, Nat.and_comm (2 ^ k - 1) b]

/-- The piece part of C5, hypothesis-free: the piece byte drawn by
`gen_piece` equals 1 + (5*B)/256 for the output byte B and lies in 1..=5. -/
theorem rngGenPiece_range (s c : Nat) :
    (rngGenPiece s c).1 = 1 + 5 * (rngGen s c).1 / 256 ∧
    1 ≤ (rngGenPiece s c).1 ∧ (rngGenPiece s c).1 ≤ 5 := by
  have hB : (rngGen s c).1 < 256 := Nat.mod_lt _ (by norm_num)
  have h1 : (5 * (rngGen s c).1) >>> 8 = 5 * (rngGen s c).1 / 256 := by
    rw [Nat.shiftRight_eq_div_pow]
  have h2 : 5 * (rngGen s c).1 / 256 ≤ 4 := by
    have := Nat.div_le_div_right (c := 256) (show 5 * (rngGen s c).1 ≤ 1275 by omega)
    simpa using this
  have he : (rngGenPiece s c).1 = (1 + (((5 * (rngGen s c).1) >>> 8) % 256)) % 256 := rfl
  have hval : (rngGenPiece s c).1 = 1 + 5 * (rngGen s c).1 / 256 := by
    rw [he, h1, Nat.mod_eq_of_lt (show 5 * (rngGen s c).1 / 256 < 256 by omega)]
    exact Nat.mod_eq_of_lt (by omega)
  exact ⟨hval, by rw [hval]; omega, by rw [hval]; omega⟩

end SameGame

namespace SameGame

/-! ### C5: RNG step formula and piece range -/

/-- Transcription of the spec's description of `GameRng::gen` (spec section
4.4): bit from the old state, then two state updates each reduced in
wrapping 16-bit arithmetic, then the low 8 bits of (S2 XOR (S2 >> 8)).
This is the claim's formula; `rngGen` is the code's formula. -/
def rngGenSpec (s c : Nat) : Nat × Nat :=
  let bit := ((s >>> 14) ^^^ s) &&& 1
  let s1 := (s ^^^ ((s <<< 8) ||| c)) % 65536
  let s2 := ((s1 <<< 1) ||| bit) % 65536
  ((s2 ^^^ (s2 >>> 8)) % 256, s2)

/-- C5: for every 16-bit state S and 8-bit counter C, one step of
`GameRng::gen` computes bit = ((S >> 14) XOR S) AND 1, then
S1 = S XOR ((S << 8) OR C) and S2 = (S1 << 1) OR bit in wrapping 16-bit
arithmetic, and returns the low 8 bits of (S2 XOR (S2 >> 8)); and
`gen_piece` maps the output byte B to 1 + (5*B)/256, which lies in 1..=5
for every B (so the unchecked `Piece` construction is sound). -/
theorem rngGen_c5 (S C : Nat) (hS : S < 65536) (hC : C < 256) :
    rngGen S C = rngGenSpec S C ∧
    (rngGenPiece S C).1 = 1 + 5 * (rngGen S C).1 / 256 ∧
    1 ≤ (rngGenPiece S C).1 ∧ (rngGenPiece S C).1 ≤ 5 := by
  refine ⟨?_, rngGenPiece_range S C⟩
  have h65536 : (65536 : Nat) = 2 ^ 16 := by norm_num
  have hb : ((S >>> 14) ^^^ S) &&& 1 ≤ 1 := Nat.and_le_right
  have hS1 : (S ^^^ ((S <<< 8) ||| C)) % 65536 = S ^^^ (((S <<< 8) % 65536) ||| C) := by
    have hSm : S % 2 ^ 16 = S := Nat.mod_eq_of_lt (by omega)
    have hCm : C % 2 ^ 16 = C := Nat.mod_eq_of_lt (by omega)
    rw [h65536, mod_pow2_xor, mod_pow2_or, hSm, hCm]
  have hS2 : ∀ t : Nat, ((t <<< 1) ||| (((S >>> 14) ^^^ S) &&& 1)) % 65536
      = ((t <<< 1) % 65536) ||| (((S >>> 14) ^^^ S) &&& 1) := by
    intro t
    rw [h65536, mod_pow2_or, Nat.mod_eq_of_lt (show ((S >>> 14) ^^^ S) &&& 1 < 2 ^ 16 by omega)]
  have key : ((((S ^^^ ((S <<< 8) ||| C)) % 65536) <<< 1) ||| (((S >>> 14) ^^^ S) &&& 1)) % 65536
      = (((S ^^^ (((S <<< 8) % 65536) ||| C)) <<< 1) % 65536) ||| (((S >>> 14) ^^^ S) &&& 1) := by
    rw [hS1, hS2]
  show rngGen S C = rngGenSpec S C
  simp only [rngGen, rngGenSpec, key]

/-- Witness for C5 at S = 0x1234, C = 0x56. -/
theorem rngGen_c5_witness :
    rngGen 0x1234 0x56 = rngGenSpec 0x1234 0x56 ∧
    (rngGenPiece 0x1234 0x56).1 = 1 + 5 * (rngGen 0x1234 0x56).1 / 256 ∧
    1 ≤ (rngGenPiece 0x1234 0x56).1 ∧ (rngGenPiece 0x1234 0x56).1 ≤ 5 :=
  rngGen_c5 0x1234 0x56 (by decide) (by decide)

/-! ### C9: maximum total score -/

/-- Subtracting one from each capture size and summing counts the total
pieces minus the number of steps. -/
theorem map_sub_one_sum (sizes : List Nat) (h : ∀ n ∈ sizes, 1 ≤ n) :
    (sizes.map (· - 1)).sum + sizes.length = sizes.sum := by
  induction sizes with
  | nil => simp
  | cons a t ih =>
    have ha : 1 ≤ a := h a (List.mem_cons_self a t)
    have ht := ih (fun n hn => h n (List.mem_cons_of_mem a hn))
    simp only [List.map_cons, List.sum_cons, List.length_cons]
    omega

/-- Per-step gains are bounded by 47 times the per-step size minus one. -/
theorem map_scoreErase_sum_le (sizes : List Nat) (h : ∀ n ∈ sizes, n ≤ 48) :
    (sizes.map scoreErase).sum ≤ 47 * (sizes.map (· - 1)).sum := by
  induction sizes with
  | nil => simp
  | cons a t ih =>
    have ha : a ≤ 48 := h a (List.mem_cons_self a t)
    have ht := ih (fun n hn => h n (List.mem_cons_of_mem a hn))
    simp only [List.map_cons, List.sum_cons]
    have hstep : scoreErase a ≤ 47 * (a - 1) := by
      unfold scoreErase
      have : (a - 1) ^ 2 = (a - 1) * (a - 1) := sq (a - 1)
      rw [this]
      exact Nat.mul_le_mul_right _ (by omega)
    omega

/-- C9: any capture sequence whose steps each clear at least 2 pieces and
whose step sizes sum to at most 48 scores at most 2409 in total (including
the perfect-clear bonus), and 2409 is attained by clearing a 48-piece
single-color board in one stroke. -/
theorem totalScore_c9 :
    (∀ (sizes : List Nat) (finalEmpty : Bool), (∀ n ∈ sizes, 2 ≤ n) → sizes.sum ≤ 48 →
      totalScore sizes finalEmpty ≤ 2409) ∧
    totalScore [48] true = 2409 ∧ totalScore [48] true = scoreErase 48 + scorePerfect := by
  refine ⟨?_, by decide, by decide⟩
  intro sizes finalEmpty h2 hsum
  have hub : ∀ n ∈ sizes, n ≤ 48 := by
    intro n hn
    calc n ≤ sizes.sum := List.single_le_sum (fun x _ => Nat.zero_le x) n hn
    _ ≤ 48 := hsum
  have h1 : ∀ n ∈ sizes, 1 ≤ n := fun n hn => le_trans (by norm_num) (h2 n hn)
  have hsub := map_sub_one_sum sizes h1
  have hsq := map_scoreErase_sum_le sizes hub
  have hlen : (sizes.map (· - 1)).sum ≤ 47 := by
    cases sizes with
    | nil => simp
    | cons a t =>
      have : (List.cons a t).length ≥ 1 := by simp
      omega
  unfold totalScore scorePerfect
  have : (sizes.map scoreErase).sum ≤ 47 * 47 := le_trans hsq (Nat.mul_le_mul_left _ hlen)
  cases finalEmpty <;> simp <;> omega

/-- Witness for C9: the one-stroke 48-piece clear satisfies the bound. -/
theorem totalScore_c9_witness : totalScore [48] true ≤ 2409 :=
  totalScore_c9.1 [48] true (by decide) (by decide)

/-! ### More bitwise helper lemmas -/

theorem and_or_right (a b m : Nat) : (a ||| b) &&& m = (a &&& m) ||| (b &&& m) := by
  apply Nat.eq_of_testBit_eq
  intro i
  simp [Nat.testBit_and, Nat.testBit_or, Bool.and_or_distrib_right]

theorem shiftRight_and (a b k : Nat) : (a &&& b) >>> k = (a >>> k) &&& (b >>> k) := by
  apply Nat.eq_of_testBit_eq
  intro i
  simp [Nat.testBit_shiftRight, Nat.testBit_and]

theorem shiftRight_or (a b k : Nat) : (a ||| b) >>> k = (a >>> k) ||| (b >>> k) := by
  apply Nat.eq_of_testBit_eq
  intro i
  simp [Nat.testBit_shiftRight, Nat.testBit_or]

end SameGame

namespace SameGame.Solver2

/-! ### Generational table of the sweep (pruning) solver, src/src/solver2.rs.

The 2^30-slot array of `Option<DpEntry>` is embedded as a function from slot
index to an optional packed `u64` entry value. -/

/-- `DpTable` of src/src/solver2.rs lines 210-215: a 16-bit generation
counter, the current-generation entry-count statistic, and the slot array. -/
structure DpTable where
  time : Nat
  entryCount : Nat
  array : Nat → Option Nat

/-- `DpTable::increment_time` (src/src/solver2.rs lines 242-251): wrapping
16-bit increment of the generation; the array is zeroed only on overflow;
the entry count resets. -/
def DpTable.incrementTime (t : DpTable) : DpTable :=
  { time := (t.time + 1) % 65536,
    entryCount := 0,
    array := if 65536 ≤ t.time + 1 then (fun _ => none) else t.array }

end SameGame.Solver2

namespace SameGame

/-! ### C7: generation advancement of the sweep table -/

/-- C7: advancing the generation increments the 16-bit counter; if and only
if the counter wraps to zero, every entry is reset to absent; otherwise
every slot is left bit-for-bit unchanged; in both cases the entry-count
statistic resets to zero. -/
theorem incrementTime_c7 (t : Solver2.DpTable) (ht : t.time < 65536) :
    (t.incrementTime).time = (t.time + 1) % 65536 ∧
    ((t.incrementTime).time = 0 ↔ t.time = 65535) ∧
    (t.time = 65535 → ∀ i, (t.incrementTime).array i = none) ∧
    (t.time ≠ 65535 → (t.incrementTime).array = t.array) ∧
    (t.incrementTime).entryCount = 0 := by
  unfold Solver2.DpTable.incrementTime
  dsimp only
  refine ⟨rfl, by omega, ?_, ?_, rfl⟩
  · intro h i
    have : 65536 ≤ t.time + 1 := by omega
    simp only [this, if_true, if_pos]
  · intro h
    have : ¬ 65536 ≤ t.time + 1 := by omega
    simp only [this, if_false]

/-- Witness for C7 at a concrete one-entry table in generation 65535. -/
theorem incrementTime_c7_witness :
    ((Solver2.DpTable.mk 65535 5 (fun j => if j = 2 then some 7 else none)).incrementTime).time
        = (65535 + 1) % 65536 ∧
    (((Solver2.DpTable.mk 65535 5 (fun j => if j = 2 then some 7 else none)).incrementTime).time = 0
        ↔ (65535 : Nat) = 65535) ∧
    ((65535 : Nat) = 65535 →
      ∀ i, ((Solver2.DpTable.mk 65535 5 (fun j => if j = 2 then some 7 else none)).incrementTime).array i = none) ∧
    ((65535 : Nat) ≠ 65535 →
      ((Solver2.DpTable.mk 65535 5 (fun j => if j = 2 then some 7 else none)).incrementTime).array
        = (fun j => if j = 2 then some 7 else none)) ∧
    ((Solver2.DpTable.mk 65535 5 (fun j => if j = 2 then some 7 else none)).incrementTime).entryCount = 0 :=
  incrementTime_c7 (Solver2.DpTable.mk 65535 5 (fun j => if j = 2 then some 7 else none)) (by norm_num)

end SameGame

namespace SameGame.Many

/-! ### Generational table of the sweep solver, src/src/solver_many.rs
lines 243-408, at the bit-packing level. Entries are the packed `u64`
words of `DpEntry`: generation in bits 0-15, 1 + gain in bits 16-27, the
high 34 bits of the key in bits 30-63. -/

/-- `DP_TABLE_CAP` (src/src/solver_many.rs line 244). -/
def DP_TABLE_CAP : Nat := 2 ^ 30

/-- `DpTable::INDEX_MASK` (src/src/solver_many.rs line 316). -/
def INDEX_MASK : Nat := DP_TABLE_CAP - 1

/-- `calc_key_hi` (src/src/solver_many.rs lines 250-252): KEY_HI_SHIFT is
64 - (64 - 30) = 30. -/
def calcKeyHi (key : Nat) : Nat := key >>> 30

/-- `DpEntry::TIME_MASK` (src/src/solver_many.rs line 268). -/
def TIME_MASK : Nat := (1 <<< 16) - 1

/-- `DpEntry::GAIN_MAX_MASK` (src/src/solver_many.rs line 272). -/
def GAIN_MAX_MASK : Nat := ((1 <<< 12) - 1) <<< 16

/-- `DpEntry::KEY_HI_MASK` (src/src/solver_many.rs line 274). -/
def KEY_HI_MASK : Nat := ((1 <<< 34) - 1) <<< 30

/-- `DpEntry::new` (src/src/solver_many.rs lines 276-283): packed value. -/
def entryNew (time key gainMax : Nat) : Nat :=
  time ||| ((1 + gainMax) <<< 16) ||| (key &&& KEY_HI_MASK)

/-- `DpEntry::time` (src/src/solver_many.rs lines 285-287). -/
def entryTime (e : Nat) : Nat := e &&& TIME_MASK

/-- `DpEntry::gain_max` (src/src/solver_many.rs lines 289-291). -/
def entryGainMax (e : Nat) : Nat := ((e &&& GAIN_MAX_MASK) >>> 16) - 1

/-- `DpEntry::key_hi` (src/src/solver_many.rs lines 300-302). -/
def entryKeyHi (e : Nat) : Nat := e >>> 30

/-- `DpTable` (src/src/solver_many.rs lines 308-313): generation, entry
count, and the slot array (slot index to optional packed entry). -/
structure DpTable where
  time : Nat
  entryCount : Nat
  array : Nat → Option Nat

/-- The provisional-entry materialization done inside `DpTable::probe`
(src/src/solver_many.rs lines 371-382): bump the entry count and store
`DpEntry::new(time, key, 0)` at the slot. -/
def DpTable.createAt (t : DpTable) (idx key : Nat) : DpTable :=
  { t with
    entryCount := t.entryCount + 1,
    array := fun j => if j = idx then some (entryNew t.time key 0) else t.array j }

/-- `DpTableProbe` (src/src/solver_many.rs lines 404-408). -/
inductive DpTableProbe where
  | Found : Nat → DpTableProbe
  | Created : Nat → DpTableProbe
deriving DecidableEq

/-- The slot advance `idx.wrapping_add(1) & INDEX_MASK`
(src/src/solver_many.rs line 390); `usize` wraps at 2^64. -/
def nextIdx (idx : Nat) : Nat := ((idx + 1) % 18446744073709551616) &&& INDEX_MASK

/-- The probe loop of `DpTable::probe` (src/src/solver_many.rs lines
367-392), with explicit fuel standing for the loop iterations (the source
loop runs until it hits a vacant or matching slot). Returns the probe
result and the updated table. -/
def DpTable.probeAux (t : DpTable) (key : Nat) : Nat → Nat → Option (DpTableProbe × DpTable)
  | _, 0 => none
  | idx, fuel + 1 =>
    match t.array idx with
    | none => some (DpTableProbe.Created idx, t.createAt idx key)
    | some e =>
      if entryTime e ≠ t.time then some (DpTableProbe.Created idx, t.createAt idx key)
      else if entryKeyHi e = calcKeyHi key then some (DpTableProbe.Found (entryGainMax e), t)
      else t.probeAux key (nextIdx idx) fuel

/-- `DpTable::probe` (src/src/solver_many.rs lines 354-393): start the walk
at `key as usize & INDEX_MASK`. -/
def DpTable.probe (t : DpTable) (key fuel : Nat) : Option (DpTableProbe × DpTable) :=
  t.probeAux key (key &&& INDEX_MASK) fuel

end SameGame.Many

namespace SameGame

/-! ### Packed-entry field lemmas -/

theorem entryNew_time (tm key : Nat) (h : tm < 65536) :
    Many.entryTime (Many.entryNew tm key 0) = tm := by
  unfold Many.entryTime Many.entryNew
  rw [and_or_right, and_or_right, Nat.and_assoc]
  have h1 : tm &&& Many.TIME_MASK = tm := by
    have : Many.TIME_MASK = 2 ^ 16 - 1 := by decide
    rw [this, Nat.and_pow_two_sub_one_eq_mod, Nat.mod_eq_of_lt (by omega)]
  have h2 : ((1 + 0) <<< 16) &&& Many.TIME_MASK = 0 := by decide
  have h3 : Many.KEY_HI_MASK &&& Many.TIME_MASK = 0 := by decide
  rw [h1, h2, h3, Nat.and_zero, Nat.or_zero, Nat.or_zero]

theorem entryNew_gainMax (tm key : Nat) (h : tm < 65536) :
    Many.entryGainMax (Many.entryNew tm key 0) = 0 := by
  unfold Many.entryGainMax Many.entryNew
  rw [and_or_right, and_or_right, Nat.and_assoc]
  have h1 : tm &&& Many.GAIN_MAX_MASK = 0 := by
    have htm : tm = tm &&& (2 ^ 16 - 1) := by
      rw [Nat.and_pow_two_sub_one_eq_mod, Nat.mod_eq_of_lt (by omega)]
    rw [htm, Nat.and_assoc]
    have : (2 ^ 16 - 1) &&& Many.GAIN_MAX_MASK = 0 := by decide
    rw [this, Nat.and_zero]
  have h2 : ((1 + 0) <<< 16) &&& Many.GAIN_MAX_MASK = 65536 := by decide
  have h3 : Many.KEY_HI_MASK &&& Many.GAIN_MAX_MASK = 0 := by decide
  rw [h1, h2, h3, Nat.and_zero, Nat.or_zero, Nat.zero_or]
  decide

theorem entryNew_keyHi (tm key : Nat) (h : tm < 65536) (hk : key < 2 ^ 64) :
    Many.entryKeyHi (Many.entryNew tm key 0) = key >>> 30 := by
  unfold Many.entryKeyHi Many.entryNew
  rw [shiftRight_or, shiftRight_or, shiftRight_and]
  have h1 : tm >>> 30 = 0 := by
    rw [Nat.shiftRight_eq_div_pow]
    exact Nat.div_eq_of_lt (by omega)
  have h2 : ((1 + 0) <<< 16) >>> 30 = 0 := by decide
  have h3 : Many.KEY_HI_MASK >>> 30 = 2 ^ 34 - 1 := by decide
  have h4 : (key >>> 30) &&& (2 ^ 34 - 1) = key >>> 30 := by
    rw [Nat.and_pow_two_sub_one_eq_mod, Nat.shiftRight_eq_div_pow]
    refine Nat.mod_eq_of_lt ?_
    refine Nat.div_lt_of_lt_mul ?_
    calc key < 2 ^ 64 := hk
    _ ≤ 2 ^ 30 * 2 ^ 34 := by norm_num
  rw [h1, h2, h3, h4, Nat.zero_or, Nat.zero_or]

/-! ### C4: the table probe walk -/

/-- C4: the probe starts at index key AND (2^30 - 1), i.e. key mod 2^30;
at an absent or generation-mismatched slot it materializes a provisional
entry (current generation, sentinel score encoding gain 0, high 34 key
bits) and returns Created there; at a current-generation slot whose stored
high-key bits equal the probed key's high 34 bits it returns Found with
the stored score and leaves the table unchanged; otherwise it advances one
slot with wraparound at 2^30. -/
theorem dpProbe_c4 (t : Many.DpTable) (key : Nat)
    (htime : t.time < 65536) (hkey : key < 2 ^ 64) :
    (∀ fuel, t.probe key fuel = t.probeAux key (key % 2 ^ 30) fuel) ∧
    (∀ idx fuel, t.array idx = none →
      t.probeAux key idx (fuel + 1) = some (Many.DpTableProbe.Created idx, t.createAt idx key)) ∧
    (∀ idx fuel e, t.array idx = some e → Many.entryTime e ≠ t.time →
      t.probeAux key idx (fuel + 1) = some (Many.DpTableProbe.Created idx, t.createAt idx key)) ∧
    (∀ idx, (t.createAt idx key).array idx = some (Many.entryNew t.time key 0)) ∧
    (∀ idx j, j ≠ idx → (t.createAt idx key).array j = t.array j) ∧
    (∀ idx, (t.createAt idx key).entryCount = t.entryCount + 1) ∧
    Many.entryTime (Many.entryNew t.time key 0) = t.time ∧
    Many.entryGainMax (Many.entryNew t.time key 0) = 0 ∧
    Many.entryKeyHi (Many.entryNew t.time key 0) = key >>> 30 ∧
    (∀ idx fuel e, t.array idx = some e → Many.entryTime e = t.time →
      Many.entryKeyHi e = Many.calcKeyHi key →
      t.probeAux key idx (fuel + 1) = some (Many.DpTableProbe.Found (Many.entryGainMax e), t)) ∧
    (∀ idx fuel e, idx < 2 ^ 30 → t.array idx = some e → Many.entryTime e = t.time →
      Many.entryKeyHi e ≠ Many.calcKeyHi key →
      t.probeAux key idx (fuel + 1) = t.probeAux key ((idx + 1) % 2 ^ 30) fuel) := by
  have hstart : key &&& Many.INDEX_MASK = key % 2 ^ 30 := by
    have : Many.INDEX_MASK = 2 ^ 30 - 1 := by decide
    rw [this, Nat.and_pow_two_sub_one_eq_mod]
  refine ⟨?_, ?_, ?_, ?_, ?_, ?_, entryNew_time t.time key htime,
    entryNew_gainMax t.time key htime, entryNew_keyHi t.time key htime hkey, ?_, ?_⟩
  · intro fuel
    unfold Many.DpTable.probe
    rw [hstart]
  · intro idx fuel hnone
    rw [Many.DpTable.probeAux, hnone]
  · intro idx fuel e hsome hne
    rw [Many.DpTable.probeAux, hsome]
    simp [hne]
  · intro idx
    unfold Many.DpTable.createAt
    simp
  · intro idx j hj
    unfold Many.DpTable.createAt
    simp [hj]
  · intro idx
    unfold Many.DpTable.createAt
    rfl
  · intro idx fuel e hsome hteq hkeq
    rw [Many.DpTable.probeAux, hsome]
    simp [hteq, hkeq]
  · intro idx fuel e hidx hsome hteq hkne
    rw [Many.DpTable.probeAux, hsome]
    have hnext : Many.nextIdx idx = (idx + 1) % 2 ^ 30 := by
      unfold Many.nextIdx
      have h1 : (idx + 1) % 18446744073709551616 = idx + 1 :=
        Nat.mod_eq_of_lt (by omega)
      have h2 : Many.INDEX_MASK = 2 ^ 30 - 1 := by decide
      rw [h1, h2, Nat.and_pow_two_sub_one_eq_mod]
    simp [hteq, hkne, hnext]

/-- Witness for C4 on a concrete two-slot scenario. -/
theorem dpProbe_c4_witness :
    Many.entryTime (Many.entryNew (Many.DpTable.mk 3 0 (fun _ => none)).time 12345 0)
        = (Many.DpTable.mk 3 0 (fun _ => none)).time ∧
    Many.entryGainMax (Many.entryNew (Many.DpTable.mk 3 0 (fun _ => none)).time 12345 0) = 0 ∧
    Many.entryKeyHi (Many.entryNew (Many.DpTable.mk 3 0 (fun _ => none)).time 12345 0)
        = 12345 >>> 30 ∧
    (Many.DpTable.mk 3 0 (fun _ => none)).probe 12345 1
        = (Many.DpTable.mk 3 0 (fun _ => none)).probeAux 12345 (12345 % 2 ^ 30) 1 ∧
    (Many.DpTable.mk 3 0 (fun _ => none)).probeAux 12345 7 1
        = some (Many.DpTableProbe.Created 7, (Many.DpTable.mk 3 0 (fun _ => none)).createAt 7 12345) := by
  have h := dpProbe_c4 (Many.DpTable.mk 3 0 (fun _ => none)) 12345 (by norm_num) (by norm_num)
  exact ⟨h.2.2.2.2.2.2.1, h.2.2.2.2.2.2.2.1, h.2.2.2.2.2.2.2.2.1, h.1 1, h.2.1 7 0 rfl⟩

/-! ### Board generation (src/src/rng.rs lines 50-65) -/

/-- Drawing `n` pieces with a fixed counter, threading the RNG state
(the `repeat_with(|| self.gen_piece(counter)).take(n)` iterators of
`gen_board`). Returns the drawn pieces in order and the final state. -/
def drawPieces (s c : Nat) : Nat → List Nat × Nat
  | 0 => ([], s)
  | n + 1 =>
    let r := rngGenPiece s c
    let rest := drawPieces r.2 c n
    (r.1 :: rest.1, rest.2)

/-- The 48 pieces drawn by `GameRng::gen_board`: `inc` pieces with counter
`c`, then `48 - inc` pieces with the wrapped counter `(c + 1) % 256`. -/
def genBoardPieces (s c inc : Nat) : List Nat :=
  (drawPieces s c inc).1 ++ (drawPieces (drawPieces s c inc).2 ((c + 1) % 256) (48 - inc)).1

/-- `GameRng::gen_board` (src/src/rng.rs lines 50-65) parametrized by the
board constructor: `Board::from_piece_arrays` lives in `board.rs`, which is
not under src/, so the constructor from the raw col-row piece matrix is an
abstract parameter (per spec section 4.4 it alone decides the re-roll
rejection). The matrix is `ColArray::from_fn(|col| RowArray::from_fn(|row|
pieces[8 * row + col]))` in 0-based indices. -/
def genBoardWith {B : Type} (ctor : (Nat → Nat → Nat) → Option B) (s c inc : Nat) : Option B :=
  ctor (fun col row => (genBoardPieces s c inc).getD (8 * row + col) 0)

/-- The RNG state after the first `i` of the 48 draws of `gen_board`. -/
def drawState (s c : Nat) : Nat → Nat
  | 0 => s
  | i + 1 => (rngGenPiece (drawState s c i) c).2

/-- The state before draw `i` of `gen_board` with increment timing `inc`. -/
def stateAt (s c inc i : Nat) : Nat :=
  if i < inc then drawState s c i
  else drawState (drawState s c inc) ((c + 1) % 256) (i - inc)

theorem drawPieces_length (s c n : Nat) : (drawPieces s c n).1.length = n := by
  induction n generalizing s with
  | zero => rfl
  | succ n ih => simp [drawPieces, ih]

theorem drawPieces_snd (s c n : Nat) : (drawPieces s c n).2 = drawState s c n := by
  induction n generalizing s with
  | zero => rfl
  | succ n ih =>
    show (drawPieces (rngGenPiece s c).2 c n).2 = _
    rw [ih]
    clear ih
    induction n with
    | zero => rfl
    | succ n ih2 =>
      show (rngGenPiece (drawState (rngGenPiece s c).2 c n) c).2 = _
      rw [ih2]
      rfl

theorem drawPieces_getD (s c : Nat) :
    ∀ n i, i < n → (drawPieces s c n).1.getD i 0 = (rngGenPiece (drawState s c i) c).1 := by
  have key : ∀ n s i, i < n →
      (drawPieces s c n).1.getD i 0 = (rngGenPiece (drawState s c i) c).1 := by
    intro n
    induction n with
    | zero => intro s i h; omega
    | succ n ih =>
      intro s i h
      cases i with
      | zero => rfl
      | succ i =>
        show (drawPieces (rngGenPiece s c).2 c n).1.getD i 0 = _
        rw [ih (rngGenPiece s c).2 i (by omega)]
        have : ∀ j, drawState (rngGenPiece s c).2 c j = drawState s c (j + 1) := by
          intro j
          induction j with
          | zero => rfl
          | succ j ihj =>
            show (rngGenPiece (drawState (rngGenPiece s c).2 c j) c).2 = _
            rw [ihj]
            rfl
        rw [this]
  exact fun n i h => key n s i h

/-! ### C6: board generation draws and placement -/

/-- C6: `gen_board` with parameters (state, counter, inc_timing ≤ 48) draws
48 pieces, the first inc_timing with counter value `counter` and the rest
with counter value (counter + 1) mod 256 (RNG state threaded through in
draw order), hands the constructor the matrix that places drawn piece i at
0-based column i mod 8, row i div 8, and returns None exactly when the
constructor from that raw piece matrix rejects. -/
theorem genBoard_c6 {B : Type} (ctor : (Nat → Nat → Nat) → Option B) (s c inc : Nat)
    (hinc : inc ≤ 48) :
    genBoardWith ctor s c inc
      = ctor (fun col row => (genBoardPieces s c inc).getD (8 * row + col) 0) ∧
    (genBoardWith ctor s c inc = none
      ↔ ctor (fun col row => (genBoardPieces s c inc).getD (8 * row + col) 0) = none) ∧
    (genBoardPieces s c inc).length = 48 ∧
    (∀ i, i < 48 → (genBoardPieces s c inc).getD i 0
      = (rngGenPiece (stateAt s c inc i) (if i < inc then c else (c + 1) % 256)).1) := by
  refine ⟨rfl, Iff.rfl, ?_, ?_⟩
  · unfold genBoardPieces
    rw [List.length_append, drawPieces_length, drawPieces_length]
    omega
  · intro i hi
    unfold genBoardPieces
    by_cases hlt : i < inc
    · rw [List.getD_append (drawPieces s c inc).1
        (drawPieces (drawPieces s c inc).2 ((c + 1) % 256) (48 - inc)).1 0 i
        (by rw [drawPieces_length]; omega)]
      rw [drawPieces_getD s c inc i hlt]
      rw [if_pos hlt]
      unfold stateAt
      rw [if_pos hlt]
    · rw [List.getD_append_right (drawPieces s c inc).1
        (drawPieces (drawPieces s c inc).2 ((c + 1) % 256) (48 - inc)).1 0 i
        (by rw [drawPieces_length]; omega),
        drawPieces_length]
      rw [drawPieces_getD _ _ (48 - inc) (i - inc) (by omega)]
      rw [if_neg hlt]
      unfold stateAt
      rw [if_neg hlt, drawPieces_snd]

/-- Witness for C6 at state 0x1234, counter 0x56, inc_timing 40, with a
constructor that returns the bottom-left matrix entry. -/
theorem genBoard_c6_witness :
    genBoardWith (fun m => some (m 0 0)) 0x1234 0x56 40
      = (fun m => some (m 0 0)) (fun col row => (genBoardPieces 0x1234 0x56 40).getD (8 * row + col) 0) ∧
    (genBoardWith (fun m => some (m 0 0)) 0x1234 0x56 40 = none
      ↔ (fun (m : Nat → Nat → Nat) => some (m 0 0)) (fun col row => (genBoardPieces 0x1234 0x56 40).getD (8 * row + col) 0) = none) ∧
    (genBoardPieces 0x1234 0x56 40).length = 48 ∧
    (∀ i, i < 48 → (genBoardPieces 0x1234 0x56 40).getD i 0
      = (rngGenPiece (stateAt 0x1234 0x56 40 i) (if i < 40 then 0x56 else (0x56 + 1) % 256)).1) :=
  genBoard_c6 (fun m => some (m 0 0)) 0x1234 0x56 40 (by norm_num)

/-! ### Board model.

Modelled from the spec: `board.rs` is declared in `lib.rs` but not under
src/. Per spec section 3 a board is 8 columns of at most 6 pieces each,
every column a contiguous stack anchored at the bottom row; squares are
column-major indices 6*col + row. The model stores each column as the list
of its pieces bottom to top; the 48-bit masks of the source become
`Finset Nat` subsets of 0..47. The take-6 windows below reflect that the
source's bitboards physically cannot hold more than 6 pieces per column. -/

/-- Modelled from the spec: a board as its eight column stacks (bottom to
top). Columns 8 and beyond are meaningful only as the all-empty padding. -/
def Board : Type := Nat → List Nat

/-- Modelled from the spec: piece values are 1..5 (spec section 3);
decidable column-wise well-formedness of the stored values. -/
def Board.valuesWF (b : Board) : Bool :=
  (List.range 8).all (fun c => (b c).all (fun q => decide (1 ≤ q ∧ q ≤ 5)))

/-- Modelled from the spec: `Board::get` returns the piece at a square
(row `sq % 6` of column `sq / 6`), `None` on an empty square. -/
def Board.get (b : Board) (sq : Nat) : Option Nat :=
  if sq < 48 then (b (sq / 6))[sq % 6]? else none

/-- Modelled from the spec: `Board::is_empty` (occupancy mask is zero). -/
def Board.isEmpty (b : Board) : Bool :=
  (List.range 8).all (fun c => (b c).isEmpty)

/-- Modelled from the spec: the occupancy mask (union of the color masks). -/
def Board.occupied (b : Board) : Finset Nat :=
  (Finset.range 48).filter (fun sq => (Board.get b sq).isSome)

/-- Modelled from the spec: `Board::piece_mask`, the mask of one color. -/
def Board.pieceMask (b : Board) (p : Nat) : Finset Nat :=
  (Finset.range 48).filter (fun sq => Board.get b sq = some p)

/-- Modelled from the spec: `Board::piece_count`. -/
def Board.pieceCount (b : Board) (p : Nat) : Nat := (Board.pieceMask b p).card

/-- Total number of pieces on the board (sum of the column stack heights
within the 6-row window). -/
def Board.totalCount (b : Board) : Nat :=
  ∑ c ∈ Finset.range 8, ((b c).take 6).length

/-- Modelled from the spec: the 4-adjacency neighbors of a square (same
column, rows differing by 1, or same row, columns differing by 1). -/
def sqNeighbors (sq : Nat) : List Nat :=
  (if sq % 6 < 5 then [sq + 1] else []) ++
  (if 0 < sq % 6 then [sq - 1] else []) ++
  (if sq / 6 < 7 then [sq + 6] else []) ++
  (if 6 ≤ sq then [sq - 6] else [])

/-- Modelled from the spec: one step of the flood-fill fixed-point
expansion, `(frontier ∪ neighbors(frontier)) ∩ self` (spec section 4.1). -/
def maskExpand (mask f : Finset Nat) : Finset Nat :=
  (f ∪ f.biUnion (fun sq => (sqNeighbors sq).toFinset)) ∩ mask

/-- Modelled from the spec: `MaskBoard::flood_fill(seed)`; 48 expansion
steps always reach the fixed point on a 48-square mask. -/
def floodFill (mask : Finset Nat) (seed : Nat) : Finset Nat :=
  (maskExpand mask)^[48] ({seed} ∩ mask)

/-- Modelled from the spec: `Board::piece_components()` — every maximal
same-color connected region, singletons included, each emitted at its
least square. -/
def Board.componentsList (b : Board) : List (Nat × Finset Nat) :=
  (List.range 48).filterMap (fun sq =>
    match Board.get b sq with
    | none => none
    | some p =>
      let comp := floodFill (Board.pieceMask b p) sq
      if ∀ m ∈ comp, sq ≤ m then some (p, comp) else none)

/-- `Position::actions` (src/src/position.rs lines 54-59): the components
that are not singletons, as (piece, mask) pairs (`Action::new`). -/
def Board.actions (b : Board) : List (Nat × Finset Nat) :=
  (Board.componentsList b).filter (fun pc => pc.2.card ≠ 1)

/-- Modelled from the spec: per-column pack-down of the erase operation —
drop the squares of the mask, keeping the surviving pieces in bottom-to-top
order (spec section 4.2 step 2). `r` is the row of the head of `l`. -/
def eraseColumnAux (mask : Finset Nat) (c : Nat) : Nat → List Nat → List Nat
  | _, [] => []
  | r, q :: rest =>
    if 6 * c + r ∈ mask then eraseColumnAux mask c (r + 1) rest
    else q :: eraseColumnAux mask c (r + 1) rest

/-- Modelled from the spec: the eight packed-down columns after removing
the mask squares (spec section 4.2 steps 1-2). -/
def Board.packedCols (b : Board) (mask : Finset Nat) : List (List Nat) :=
  (List.range 8).map (fun c => eraseColumnAux mask c 0 ((b c).take 6))

/-- Modelled from the spec: the packed columns that did not become empty,
kept in their left-to-right order (spec section 4.2 step 3). -/
def Board.survivorCols (b : Board) (mask : Finset Nat) : List (List Nat) :=
  (Board.packedCols b mask).filter (fun l => !l.isEmpty)

/-- Modelled from the spec: `Board::erase` — remove the mask squares, pack
each column down, then eliminate empty columns by shifting the columns to
their right leftward, so the surviving columns sit contiguously at the
left in their original order (spec section 4.2). -/
def Board.erase (b : Board) (mask : Finset Nat) : Board :=
  fun c => (Board.survivorCols b mask).getD c []

/-- Modelled from the spec: `Board::xor_mask` — the union over the five
colors of the symmetric difference of the color masks. Spec section 4.3
notes that the same square may be occupied on both sides with different
colors after column compaction, so the mask is color-sensitive. -/
def Board.xorMask (b b2 : Board) : Finset Nat :=
  (Finset.range 5).biUnion (fun i =>
    (Board.pieceMask b (i + 1) \ Board.pieceMask b2 (i + 1)) ∪
    (Board.pieceMask b2 (i + 1) \ Board.pieceMask b (i + 1)))

/-- The Zobrist contribution of one square:
`board.get(sq).map_or(0, |piece| ZOBRIST_TABLE.board(piece, sq))`
(src/src/position.rs lines 21-24). The embedded Zobrist table `Z` is a
parameter everywhere: the asset holding the concrete random constants is
compile-time data not under src/, and no claim depends on its values. -/
def contrib (Z : Nat → Nat → Nat) (b : Board) (sq : Nat) : Nat :=
  match Board.get b sq with
  | some p => Z p sq
  | none => 0

/-- XOR-fold of a list (the `reduce(BitXor::bitxor)` of `Position::new`;
folding with identity 0 agrees with `reduce` on the nonempty square list). -/
def xorsum (l : List Nat) : Nat := l.foldr (· ^^^ ·) 0

/-- The from-scratch Zobrist key of `Position::new`
(src/src/position.rs lines 19-27). -/
def posKeyFromScratch (Z : Nat → Nat → Nat) (b : Board) : Nat :=
  xorsum ((List.range 48).map (contrib Z b))

/-- `Position` (src/src/position.rs lines 10-15): board, key, per-color
counts. -/
structure Position where
  board : Board
  key : Nat
  pieceCounts : Nat → Nat

/-- `Position::new` (src/src/position.rs lines 19-36). -/
def Position.new (Z : Nat → Nat → Nat) (b : Board) : Position :=
  { board := b, key := posKeyFromScratch Z b,
    pieceCounts := fun p => Board.pieceCount b p }

/-- Wrapping 8-bit subtraction (`u8 -=` in release mode); the second
argument is already reduced mod 256 by the `as u8` cast. -/
def u8sub (a k : Nat) : Nat := (a + 256 - k) % 256

/-- `Position::do_action` (src/src/position.rs lines 62-84): erase the
action mask, update the key by XORing the before/after contributions of
every square of the xor mask (ascending square order), decrement the
captured color's count. -/
def Position.doAction (Z : Nat → Nat → Nat) (pos : Position) (a : Nat × Finset Nat) : Position :=
  let b2 := Board.erase pos.board a.2
  { board := b2,
    key := ((List.range 48).filter (fun sq => sq ∈ Board.xorMask pos.board b2)).foldl
      (fun k sq => (k ^^^ contrib Z pos.board sq) ^^^ contrib Z b2 sq) pos.key,
    pieceCounts := fun q =>
      if q = a.1 then u8sub (pos.pieceCounts q) (a.2.card % 256) else pos.pieceCounts q }

/-- `Action::least_square` (src/src/action.rs lines 59-61): the least
square of the mask. -/
def leastSquare (m : Finset Nat) : Nat := m.min.untop' 0

/-! ### Counting lemmas for the board model -/

/-- Number of mask squares hitting the column stack `l` whose head sits at
row `r` of column `c`. -/
def removedCount (mask : Finset Nat) (c : Nat) : Nat → List Nat → Nat
  | _, [] => 0
  | r, _ :: rest => (if 6 * c + r ∈ mask then 1 else 0) + removedCount mask c (r + 1) rest

theorem eraseColumnAux_length (mask : Finset Nat) (c : Nat) :
    ∀ l r, (eraseColumnAux mask c r l).length + removedCount mask c r l = l.length := by
  intro l
  induction l with
  | nil => intro r; rfl
  | cons q rest ih =>
    intro r
    unfold eraseColumnAux removedCount
    have := ih (r + 1)
    by_cases h : 6 * c + r ∈ mask
    · simp only [h, if_true, List.length_cons]
      omega
    · simp only [h, if_false, List.length_cons]
      omega

theorem removedCount_eq_sum (mask : Finset Nat) (c : Nat) :
    ∀ l r, removedCount mask c r l
      = ∑ i ∈ Finset.range l.length, (if 6 * c + (r + i) ∈ mask then 1 else 0) := by
  intro l
  induction l with
  | nil => intro r; rfl
  | cons q rest ih =>
    intro r
    show (if 6 * c + r ∈ mask then 1 else 0) + removedCount mask c (r + 1) rest = _
    rw [List.length_cons, Finset.sum_range_succ', ih (r + 1)]
    have hcong : ∀ i ∈ Finset.range rest.length,
        (if 6 * c + (r + (i + 1)) ∈ mask then (1 : Nat) else 0)
          = (if 6 * c + (r + 1 + i) ∈ mask then 1 else 0) := by
      intro i _
      have : 6 * c + (r + (i + 1)) = 6 * c + (r + 1 + i) := by omega
      rw [this]
    rw [Finset.sum_congr rfl hcong]
    have : 6 * c + (r + 0) = 6 * c + r := by omega
    rw [this]
    omega

theorem sum_range48 (f : Nat → Nat) :
    ∑ sq ∈ Finset.range 48, f sq
      = ∑ c ∈ Finset.range 8, ∑ r ∈ Finset.range 6, f (6 * c + r) := by
  have hstep : ∑ sq ∈ Finset.range 48, f sq
      = ∑ pr ∈ Finset.range 8 ×ˢ Finset.range 6, f (6 * pr.1 + pr.2) := by
    refine Finset.sum_nbij' (fun sq => (sq / 6, sq % 6)) (fun pr => 6 * pr.1 + pr.2)
      ?_ ?_ ?_ ?_ ?_
    · intro sq hsq
      rw [Finset.mem_range] at hsq
      simp only [Finset.mem_product, Finset.mem_range]
      omega
    · intro pr hpr
      simp only [Finset.mem_product, Finset.mem_range] at hpr
      dsimp only
      rw [Finset.mem_range]
      omega
    · intro sq hsq
      dsimp only
      omega
    · intro pr hpr
      simp only [Finset.mem_product, Finset.mem_range] at hpr
      dsimp only
      have h1 : (6 * pr.1 + pr.2) / 6 = pr.1 := by omega
      have h2 : (6 * pr.1 + pr.2) % 6 = pr.2 := by omega
      rw [Prod.ext_iff]
      exact ⟨h1, h2⟩
    · intro sq hsq
      dsimp only
      have : 6 * (sq / 6) + sq % 6 = sq := by omega
      rw [this]
  rw [hstep]
  exact Finset.sum_product _ _ _

theorem board_get_at (b : Board) (c r : Nat) (hc : c < 8) (hr : r < 6) :
    Board.get b (6 * c + r) = (b c)[r]? := by
  unfold Board.get
  have hlt : 6 * c + r < 48 := by omega
  rw [if_pos hlt]
  have h1 : (6 * c + r) / 6 = c := by omega
  have h2 : (6 * c + r) % 6 = r := by omega
  rw [h1, h2]

theorem mask_inter_occupied (b : Board) (mask : Finset Nat) :
    mask ∩ Board.occupied b = (Finset.range 48).filter
      (fun sq => sq ∈ mask ∧ (Board.get b sq).isSome) := by
  ext sq
  simp only [Board.occupied, Finset.mem_inter, Finset.mem_filter, Finset.mem_range]
  tauto

theorem removed_total (b : Board) (mask : Finset Nat) :
    ∑ c ∈ Finset.range 8, removedCount mask c 0 ((b c).take 6)
      = (mask ∩ Board.occupied b).card := by
  rw [mask_inter_occupied, Finset.card_filter, sum_range48]
  refine Finset.sum_congr rfl ?_
  intro c hc
  rw [Finset.mem_range] at hc
  rw [removedCount_eq_sum, List.length_take]
  have hstep : ∀ r ∈ Finset.range 6,
      (if 6 * c + r ∈ mask ∧ (Board.get b (6 * c + r)).isSome then (1 : Nat) else 0)
        = (if r ∈ Finset.range (6 ⊓ (b c).length) then (if 6 * c + (0 + r) ∈ mask then 1 else 0) else 0) := by
    intro r hr
    rw [Finset.mem_range] at hr
    rw [board_get_at b c r hc hr]
    by_cases hlen : r < (b c).length
    · rw [List.getElem?_eq_getElem hlen]
      have hmin : r ∈ Finset.range (6 ⊓ (b c).length) := by
        rw [Finset.mem_range]
        omega
      simp [hmin]
    · rw [List.getElem?_eq_none (by omega)]
      have hmin : r ∉ Finset.range (6 ⊓ (b c).length) := by
        rw [Finset.mem_range]
        omega
      simp [hmin]
  rw [Finset.sum_congr rfl hstep]
  rw [← Finset.sum_subset (Finset.range_subset.mpr (min_le_left 6 (b c).length))
    (fun x _ hx => by rw [if_neg hx])]
  refine (Finset.sum_congr rfl ?_).symm
  intro r hr
  rw [if_pos hr]

theorem sum_ind_lt (L : Nat) :
    ∑ r ∈ Finset.range 6, (if r < L then (1 : Nat) else 0) = 6 ⊓ L := by
  rw [← Finset.card_filter]
  have : (Finset.range 6).filter (fun r => r < L) = Finset.range (6 ⊓ L) := by
    ext x
    simp only [Finset.mem_filter, Finset.mem_range]
    omega
  rw [this, Finset.card_range]

theorem occupied_card (b : Board) : (Board.occupied b).card = Board.totalCount b := by
  unfold Board.occupied Board.totalCount
  rw [Finset.card_filter, sum_range48]
  refine Finset.sum_congr rfl ?_
  intro c hc
  rw [Finset.mem_range] at hc
  have hstep : ∀ r ∈ Finset.range 6,
      (if (Board.get b (6 * c + r)).isSome then (1 : Nat) else 0)
        = (if r < (b c).length then 1 else 0) := by
    intro r hr
    rw [Finset.mem_range] at hr
    rw [board_get_at b c r hc hr]
    by_cases hlen : r < (b c).length
    · rw [List.getElem?_eq_getElem hlen]
      simp [hlen]
    · rw [List.getElem?_eq_none (by omega)]
      simp [hlen]
  rw [Finset.sum_congr rfl hstep, sum_ind_lt, List.length_take]

theorem getD_length_sum :
    ∀ (l : List (List Nat)) (n : Nat), l.length ≤ n →
      ∑ c ∈ Finset.range n, (l.getD c []).length = (l.map List.length).sum := by
  intro l
  induction l with
  | nil =>
    intro n _
    have hz : ∀ c ∈ Finset.range n, (List.getD ([] : List (List Nat)) c []).length = 0 := by
      intro c _
      rfl
    rw [Finset.sum_congr rfl hz]
    simp
  | cons x t ih =>
    intro n hn
    rw [List.length_cons] at hn
    cases n with
    | zero => omega
    | succ m =>
      rw [Finset.sum_range_succ']
      have hs : ∀ c ∈ Finset.range m,
          ((x :: t).getD (c + 1) []).length = (t.getD c []).length := by
        intro c _
        rfl
      rw [Finset.sum_congr rfl hs, ih m (by omega)]
      show (t.map List.length).sum + x.length = ((x :: t).map List.length).sum
      rw [List.map_cons, List.sum_cons]
      omega

theorem filter_nonempty_length_sum :
    ∀ l : List (List Nat),
      ((l.filter (fun x => !x.isEmpty)).map List.length).sum = (l.map List.length).sum := by
  intro l
  induction l with
  | nil => rfl
  | cons x t ih =>
    rw [List.filter_cons]
    by_cases h : x.isEmpty
    · have hlen : x.length = 0 := by
        rw [List.isEmpty_iff] at h
        rw [h]
        rfl
      simp [h, hlen, ih]
    · have hb : x.isEmpty = false := by
        cases hx : x.isEmpty
        · rfl
        · exact absurd hx h
      simp [hb, ih]

theorem list_map_range_sum (f : Nat → Nat) :
    ∀ n, ((List.range n).map f).sum = ∑ c ∈ Finset.range n, f c := by
  intro n
  induction n with
  | zero => rfl
  | succ m ih =>
    rw [List.range_succ, List.map_append, List.sum_append, Finset.sum_range_succ, ih]
    simp

theorem survivorCols_length_le (b : Board) (mask : Finset Nat) :
    (Board.survivorCols b mask).length ≤ 8 := by
  unfold Board.survivorCols Board.packedCols
  refine le_trans (List.length_filter_le _ _) ?_
  rw [List.length_map, List.length_range]

theorem survivorCols_mem_length_le (b : Board) (mask : Finset Nat) :
    ∀ x ∈ Board.survivorCols b mask, x.length ≤ 6 := by
  intro x hx
  unfold Board.survivorCols at hx
  have hx2 := List.mem_of_mem_filter hx
  unfold Board.packedCols at hx2
  rw [List.mem_map] at hx2
  obtain ⟨c, _, hc⟩ := hx2
  subst hc
  have h1 := eraseColumnAux_length mask c ((b c).take 6) 0
  have h2 : ((b c).take 6).length ≤ 6 := by
    rw [List.length_take]
    omega
  omega

theorem erase_col_length_le (b : Board) (mask : Finset Nat) (c : Nat) :
    (Board.erase b mask c).length ≤ 6 := by
  unfold Board.erase
  rcases hx : (Board.survivorCols b mask)[c]? with _ | x
  · rw [List.getD_eq_getElem?_getD, hx]
    simp
  · rw [List.getD_eq_getElem?_getD, hx]
    exact survivorCols_mem_length_le b mask x (List.getElem?_mem hx)

/-- Erasing a mask removes exactly the occupied mask squares from the
total piece count. -/
theorem totalCount_erase (b : Board) (mask : Finset Nat) :
    Board.totalCount (Board.erase b mask) + (mask ∩ Board.occupied b).card
      = Board.totalCount b := by
  have step1 : Board.totalCount (Board.erase b mask)
      = ∑ c ∈ Finset.range 8, ((Board.survivorCols b mask).getD c []).length := by
    unfold Board.totalCount
    refine Finset.sum_congr rfl ?_
    intro c _
    rw [List.length_take]
    have := erase_col_length_le b mask c
    unfold Board.erase at this ⊢
    omega
  have step2 : ∑ c ∈ Finset.range 8, ((Board.survivorCols b mask).getD c []).length
      = ((Board.survivorCols b mask).map List.length).sum :=
    getD_length_sum _ 8 (survivorCols_length_le b mask)
  have step3 : ((Board.survivorCols b mask).map List.length).sum
      = ((Board.packedCols b mask).map List.length).sum := by
    unfold Board.survivorCols
    exact filter_nonempty_length_sum _
  have step4 : ((Board.packedCols b mask).map List.length).sum
      = ∑ c ∈ Finset.range 8, (eraseColumnAux mask c 0 ((b c).take 6)).length := by
    unfold Board.packedCols
    rw [List.map_map]
    exact list_map_range_sum _ 8
  have step5 : ∑ c ∈ Finset.range 8, (eraseColumnAux mask c 0 ((b c).take 6)).length
        + ∑ c ∈ Finset.range 8, removedCount mask c 0 ((b c).take 6)
      = ∑ c ∈ Finset.range 8, ((b c).take 6).length := by
    rw [← Finset.sum_add_distrib]
    refine Finset.sum_congr rfl ?_
    intro c _
    exact eraseColumnAux_length mask c ((b c).take 6) 0
  have step6 := removed_total b mask
  rw [step1, step2, step3, step4]
  unfold Board.totalCount
  omega

/-! ### Flood fill and action lemmas -/

theorem floodFill_subset (mask : Finset Nat) (seed : Nat) :
    floodFill mask seed ⊆ mask := by
  unfold floodFill
  rw [Function.iterate_succ_apply']
  unfold maskExpand
  exact Finset.inter_subset_right

theorem subset_iterate_maskExpand (mask : Finset Nat) :
    ∀ n (s : Finset Nat), s ⊆ mask → s ⊆ (maskExpand mask)^[n] s := by
  intro n
  induction n with
  | zero => intro s _; exact subset_rfl
  | succ m ih =>
    intro s hs
    rw [Function.iterate_succ_apply]
    have h1 : s ⊆ maskExpand mask s := by
      intro x hx
      unfold maskExpand
      rw [Finset.mem_inter]
      exact ⟨Finset.mem_union_left _ hx, hs hx⟩
    have h2 : maskExpand mask s ⊆ mask := Finset.inter_subset_right
    exact subset_trans h1 (ih (maskExpand mask s) h2)

theorem seed_mem_floodFill (mask : Finset Nat) (seed : Nat) (h : seed ∈ mask) :
    seed ∈ floodFill mask seed := by
  unfold floodFill
  have hstart : seed ∈ ({seed} : Finset Nat) ∩ mask := by
    rw [Finset.mem_inter, Finset.mem_singleton]
    exact ⟨rfl, h⟩
  exact subset_iterate_maskExpand mask 48 _ Finset.inter_subset_right hstart

theorem mem_componentsList (b : Board) (p : Nat) (comp : Finset Nat)
    (h : (p, comp) ∈ Board.componentsList b) :
    ∃ sq, Board.get b sq = some p ∧ comp = floodFill (Board.pieceMask b p) sq ∧ sq ∈ comp := by
  unfold Board.componentsList at h
  rw [List.mem_filterMap] at h
  obtain ⟨sq, hsq48, hsq⟩ := h
  rw [List.mem_range] at hsq48
  rcases hget : Board.get b sq with _ | q
  · rw [hget] at hsq
    exact absurd hsq (by simp)
  · rw [hget] at hsq
    dsimp only at hsq
    by_cases hcond : ∀ m ∈ floodFill (Board.pieceMask b q) sq, sq ≤ m
    · rw [if_pos hcond] at hsq
      simp only [Option.some.injEq, Prod.mk.injEq] at hsq
      obtain ⟨hq, hcomp⟩ := hsq
      subst hq
      refine ⟨sq, hget, hcomp.symm, ?_⟩
      rw [← hcomp]
      refine seed_mem_floodFill _ sq ?_
      unfold Board.pieceMask
      rw [Finset.mem_filter, Finset.mem_range]
      exact ⟨hsq48, hget⟩
    · rw [if_neg hcond] at hsq
      exact absurd hsq (by simp)

theorem pieceMask_subset_occupied (b : Board) (p : Nat) :
    Board.pieceMask b p ⊆ Board.occupied b := by
  intro sq hsq
  unfold Board.pieceMask at hsq
  unfold Board.occupied
  rw [Finset.mem_filter] at hsq ⊢
  refine ⟨hsq.1, ?_⟩
  rw [hsq.2]
  rfl

theorem actions_mem_spec (b : Board) (a : Nat × Finset Nat) (h : a ∈ Board.actions b) :
    a.2 ⊆ Board.pieceMask b a.1 ∧ 2 ≤ a.2.card := by
  unfold Board.actions at h
  rw [List.mem_filter] at h
  obtain ⟨hmem, hcard⟩ := h
  obtain ⟨sq, hget, hcomp, hseed⟩ := mem_componentsList b a.1 a.2 hmem
  constructor
  · rw [hcomp]
    exact floodFill_subset _ _
  · have h1 : 1 ≤ a.2.card := Finset.card_pos.mpr ⟨sq, hseed⟩
    have h2 : a.2.card ≠ 1 := by
      simpa using hcard
    omega

/-- Every legal action strictly decreases the total piece count by at
least 2 (its mask popcount). -/
theorem totalCount_erase_action (b : Board) (a : Nat × Finset Nat) (h : a ∈ Board.actions b) :
    Board.totalCount (Board.erase b a.2) + 2 ≤ Board.totalCount b := by
  obtain ⟨hsub, hcard⟩ := actions_mem_spec b a h
  have hocc : a.2 ⊆ Board.occupied b :=
    subset_trans hsub (pieceMask_subset_occupied b a.1)
  have hinter : a.2 ∩ Board.occupied b = a.2 := Finset.inter_eq_left.mpr hocc
  have := totalCount_erase b a.2
  rw [hinter] at this
  omega

theorem totalCount_le_48 (b : Board) : Board.totalCount b ≤ 48 := by
  unfold Board.totalCount
  calc ∑ c ∈ Finset.range 8, ((b c).take 6).length
      ≤ ∑ _c ∈ Finset.range 8, 6 := by
        refine Finset.sum_le_sum ?_
        intro c _
        rw [List.length_take]
        omega
    _ = 48 := by simp

/-! ### C8: termination of the search -/

/-- A sequence of successively legal captures played from a board: each
action is produced by `actions()` on the board reached so far. -/
inductive ActionSeq : Board → List (Nat × Finset Nat) → Prop
  | nil (b : Board) : ActionSeq b []
  | cons (b : Board) (a : Nat × Finset Nat) (rest : List (Nat × Finset Nat)) :
      a ∈ Board.actions b → ActionSeq (Board.erase b a.2) rest → ActionSeq b (a :: rest)

theorem actionSeq_length_le (b : Board) (seq : List (Nat × Finset Nat))
    (h : ActionSeq b seq) : 2 * seq.length ≤ Board.totalCount b := by
  induction h with
  | nil => simp
  | cons b a rest ha _ ih =>
    have := totalCount_erase_action b a ha
    rw [List.length_cons]
    omega

/-- C8: every legal action (an element of `actions()`, whose masks feed
`Action::new`) captures at least 2 pieces; playing it decreases the total
piece count by at least 2; a board holds at most 48 pieces; hence every
sequence of legal captures — in particular every DFS path, so the
recursion depth — has length at most 24. The embedded `Solver.dfs` below
is a total function by well-founded recursion on this piece count. -/
theorem dfs_c8 :
    (∀ (b : Board) (a : Nat × Finset Nat), a ∈ Board.actions b → 2 ≤ a.2.card) ∧
    (∀ (b : Board) (a : Nat × Finset Nat), a ∈ Board.actions b →
      Board.totalCount (Board.erase b a.2) + 2 ≤ Board.totalCount b) ∧
    (∀ b : Board, Board.totalCount b ≤ 48) ∧
    (∀ (b : Board) (seq : List (Nat × Finset Nat)), ActionSeq b seq → seq.length ≤ 24) := by
  refine ⟨?_, totalCount_erase_action, totalCount_le_48, ?_⟩
  · intro b a ha
    exact (actions_mem_spec b a ha).2
  · intro b seq h
    have h1 := actionSeq_length_le b seq h
    have h2 := totalCount_le_48 b
    omega

/-- Witness for C8 on the board with a single 2-piece color-1 column-0
component. -/
theorem dfs_c8_witness :
    2 ≤ ({0, 1} : Finset Nat).card ∧
    Board.totalCount
        (Board.erase (fun c => if c = 0 then [1, 1] else []) ({0, 1} : Finset Nat)) + 2
      ≤ Board.totalCount (fun c => if c = 0 then [1, 1] else []) ∧
    Board.totalCount (fun c => if c = 0 then [1, 1] else []) ≤ 48 ∧
    [((1 : Nat), ({0, 1} : Finset Nat))].length ≤ 24 := by
  have hmem : ((1 : Nat), ({0, 1} : Finset Nat)) ∈
      Board.actions (fun c => if c = 0 then [1, 1] else []) := by decide
  refine ⟨dfs_c8.1 _ _ hmem, dfs_c8.2.1 _ _ hmem, dfs_c8.2.2.1 _, ?_⟩
  exact dfs_c8.2.2.2 (fun c => if c = 0 then [1, 1] else []) _
    (ActionSeq.cons _ _ _ hmem (ActionSeq.nil _))

/-! ### XOR algebra for the incremental key update -/

theorem xorsum_cons (a : Nat) (l : List Nat) : xorsum (a :: l) = a ^^^ xorsum l := rfl

theorem foldl_xor (h : Nat → Nat) :
    ∀ (l : List Nat) (init : Nat),
      l.foldl (fun k x => k ^^^ h x) init = init ^^^ xorsum (l.map h) := by
  intro l
  induction l with
  | nil =>
    intro init
    show init = init ^^^ 0
    rw [Nat.xor_zero]
  | cons x t ih =>
    intro init
    show t.foldl _ (init ^^^ h x) = _
    rw [ih, List.map_cons, xorsum_cons, Nat.xor_assoc]

theorem xor_shuffle (a b c d : Nat) :
    (a ^^^ c) ^^^ ((a ^^^ b) ^^^ d) = b ^^^ (c ^^^ d) := by
  apply Nat.eq_of_testBit_eq
  intro i
  simp only [Nat.testBit_xor]
  cases a.testBit i <;> cases b.testBit i <;> cases c.testBit i <;> cases d.testBit i <;> rfl

theorem xorsum_update :
    ∀ (l : List Nat) (f g : Nat → Nat) (P : Nat → Bool),
      (∀ x ∈ l, P x = false → f x = g x) →
      xorsum (l.map f) ^^^ xorsum ((l.filter P).map (fun x => f x ^^^ g x))
        = xorsum (l.map g) := by
  intro l
  induction l with
  | nil =>
    intro f g P _
    simp [xorsum]
  | cons x t ih =>
    intro f g P hP
    have iht := ih f g P (fun y hy hf => hP y (List.mem_cons_of_mem x hy) hf)
    rw [List.filter_cons]
    by_cases hx : P x
    · rw [if_pos hx]
      show (f x ^^^ xorsum (t.map f))
          ^^^ ((f x ^^^ g x) ^^^ xorsum ((t.filter P).map (fun y => f y ^^^ g y)))
        = g x ^^^ xorsum (t.map g)
      rw [← iht, xor_shuffle]
    · have hfalse : P x = false := by
        cases hPx : P x
        · rfl
        · exact absurd hPx hx
      rw [if_neg hx]
      show (f x ^^^ xorsum (t.map f)) ^^^ xorsum ((t.filter P).map (fun y => f y ^^^ g y))
        = g x ^^^ xorsum (t.map g)
      rw [hP x (List.mem_cons_self x t) hfalse, Nat.xor_assoc, iht]

/-! ### Value well-formedness and the xor mask -/

theorem valuesWF_get (b : Board) (h : Board.valuesWF b = true) (sq q : Nat)
    (hq : Board.get b sq = some q) : 1 ≤ q ∧ q ≤ 5 := by
  have hsq : sq < 48 := by
    by_contra hc
    unfold Board.get at hq
    rw [if_neg hc] at hq
    exact absurd hq (by simp)
  have hmem : q ∈ b (sq / 6) := by
    unfold Board.get at hq
    rw [if_pos hsq] at hq
    exact List.getElem?_mem hq
  unfold Board.valuesWF at h
  rw [List.all_eq_true] at h
  have hcol := h (sq / 6) (by rw [List.mem_range]; omega)
  rw [List.all_eq_true] at hcol
  have := hcol q hmem
  exact of_decide_eq_true this

theorem eraseColumnAux_mem (mask : Finset Nat) (c : Nat) :
    ∀ (l : List Nat) (r x : Nat), x ∈ eraseColumnAux mask c r l → x ∈ l := by
  intro l
  induction l with
  | nil => intro r x hx; exact absurd hx (by simp [eraseColumnAux])
  | cons q rest ih =>
    intro r x hx
    unfold eraseColumnAux at hx
    by_cases h : 6 * c + r ∈ mask
    · rw [if_pos h] at hx
      exact List.mem_cons_of_mem q (ih (r + 1) x hx)
    · rw [if_neg h] at hx
      rcases List.mem_cons.mp hx with h1 | h2
      · rw [h1]; exact List.mem_cons_self q rest
      · exact List.mem_cons_of_mem q (ih (r + 1) x h2)

theorem erase_col_mem (b : Board) (mask : Finset Nat) (c x : Nat)
    (hx : x ∈ Board.erase b mask c) : ∃ c', c' < 8 ∧ x ∈ b c' := by
  unfold Board.erase at hx
  rcases hcol : (Board.survivorCols b mask)[c]? with _ | col
  · rw [List.getD_eq_getElem?_getD, hcol] at hx
    exact absurd hx (by simp)
  · rw [List.getD_eq_getElem?_getD, hcol] at hx
    have hmem : col ∈ Board.survivorCols b mask := List.getElem?_mem hcol
    unfold Board.survivorCols at hmem
    have hmem2 := List.mem_of_mem_filter hmem
    unfold Board.packedCols at hmem2
    rw [List.mem_map] at hmem2
    obtain ⟨c', hc', hcol'⟩ := hmem2
    rw [List.mem_range] at hc'
    subst hcol'
    refine ⟨c', hc', ?_⟩
    have := eraseColumnAux_mem mask c' ((b c').take 6) 0 x (by simpa using hx)
    exact List.mem_of_mem_take this

theorem valuesWF_erase (b : Board) (mask : Finset Nat)
    (h : Board.valuesWF b = true) : Board.valuesWF (Board.erase b mask) = true := by
  unfold Board.valuesWF
  rw [List.all_eq_true]
  intro c _
  rw [List.all_eq_true]
  intro x hx
  obtain ⟨c', hc', hmem⟩ := erase_col_mem b mask c x hx
  unfold Board.valuesWF at h
  rw [List.all_eq_true] at h
  have hcol := h c' (by rw [List.mem_range]; omega)
  rw [List.all_eq_true] at hcol
  exact hcol x hmem

theorem mem_pieceMask (b : Board) (p sq : Nat) :
    sq ∈ Board.pieceMask b p ↔ sq < 48 ∧ Board.get b sq = some p := by
  unfold Board.pieceMask
  rw [Finset.mem_filter, Finset.mem_range]

theorem get_eq_of_not_mem_xorMask (b b2 : Board) (sq : Nat)
    (hb : Board.valuesWF b = true) (hb2 : Board.valuesWF b2 = true) (hsq : sq < 48)
    (h : sq ∉ Board.xorMask b b2) : Board.get b sq = Board.get b2 sq := by
  have hiff : ∀ p, 1 ≤ p → p ≤ 5 → (sq ∈ Board.pieceMask b p ↔ sq ∈ Board.pieceMask b2 p) := by
    intro p hp1 hp5
    unfold Board.xorMask at h
    rw [Finset.mem_biUnion] at h
    push_neg at h
    have := h (p - 1) (by rw [Finset.mem_range]; omega)
    have hrepl : p - 1 + 1 = p := by omega
    rw [hrepl] at this
    rw [Finset.mem_union, Finset.mem_sdiff, Finset.mem_sdiff] at this
    push_neg at this
    exact ⟨fun hmem => this.1 hmem, fun hmem => this.2 hmem⟩
  rcases hget : Board.get b sq with _ | q
  · rcases hget2 : Board.get b2 sq with _ | q2
    · rfl
    · obtain ⟨h1, h5⟩ := valuesWF_get b2 hb2 sq q2 hget2
      have hmem2 : sq ∈ Board.pieceMask b2 q2 := (mem_pieceMask b2 q2 sq).mpr ⟨hsq, hget2⟩
      have hmem1 : sq ∈ Board.pieceMask b q2 := ((hiff q2 h1 h5).mpr hmem2)
      rw [((mem_pieceMask b q2 sq).mp hmem1).2] at hget
      exact absurd hget (by simp)
  · obtain ⟨h1, h5⟩ := valuesWF_get b hb sq q hget
    have hmem1 : sq ∈ Board.pieceMask b q := (mem_pieceMask b q sq).mpr ⟨hsq, hget⟩
    have hmem2 : sq ∈ Board.pieceMask b2 q := (hiff q h1 h5).mp hmem1
    exact (((mem_pieceMask b2 q sq).mp hmem2).2).symm

/-! ### C1: incremental key update and piece-count update -/

/-- The incremental key of `do_action` equals the from-scratch key of the
resulting board, for any erased mask at all. -/
theorem doAction_key (Z : Nat → Nat → Nat) (pos : Position) (a : Nat × Finset Nat)
    (hval : Board.valuesWF pos.board = true)
    (hkey : pos.key = posKeyFromScratch Z pos.board) :
    (Position.doAction Z pos a).key = posKeyFromScratch Z (Board.erase pos.board a.2) := by
  have hval2 : Board.valuesWF (Board.erase pos.board a.2) = true := valuesWF_erase _ _ hval
  show ((List.range 48).filter
      (fun sq => sq ∈ Board.xorMask pos.board (Board.erase pos.board a.2))).foldl
      (fun k sq => (k ^^^ contrib Z pos.board sq) ^^^ contrib Z (Board.erase pos.board a.2) sq)
      pos.key
    = posKeyFromScratch Z (Board.erase pos.board a.2)
  have hstep : (fun k sq =>
        (k ^^^ contrib Z pos.board sq) ^^^ contrib Z (Board.erase pos.board a.2) sq)
      = (fun k sq =>
          k ^^^ (contrib Z pos.board sq ^^^ contrib Z (Board.erase pos.board a.2) sq)) := by
    funext k sq
    rw [Nat.xor_assoc]
  rw [hstep, foldl_xor, hkey]
  unfold posKeyFromScratch
  refine xorsum_update (List.range 48) (contrib Z pos.board)
    (contrib Z (Board.erase pos.board a.2)) _ ?_
  intro sq hsq hP
  rw [List.mem_range] at hsq
  have hnot : sq ∉ Board.xorMask pos.board (Board.erase pos.board a.2) :=
    of_decide_eq_false hP
  have hget := get_eq_of_not_mem_xorMask pos.board (Board.erase pos.board a.2) sq
    hval hval2 hsq hnot
  unfold contrib
  rw [hget]

theorem pieceCount_le_48 (b : Board) (p : Nat) : Board.pieceCount b p ≤ 48 := by
  unfold Board.pieceCount Board.pieceMask
  calc ((Finset.range 48).filter (fun sq => Board.get b sq = some p)).card
      ≤ (Finset.range 48).card := Finset.card_filter_le _ _
    _ = 48 := Finset.card_range 48

/-- C1: for a position whose key and counts are consistent with its board
(as every position built by `Position::new` or `do_action` is) and any
action whose mask lies inside the captured color's mask (as every action
from `actions()` or `Action::from_board_square` does), `do_action` yields
the key that `Position::new` computes from scratch on the resulting board,
and decrements exactly the captured color's count by the mask popcount,
leaving all other colors unchanged. -/
theorem doAction_c1 (Z : Nat → Nat → Nat) (pos : Position) (a : Nat × Finset Nat)
    (hval : Board.valuesWF pos.board = true)
    (hsub : a.2 ⊆ Board.pieceMask pos.board a.1)
    (hkey : pos.key = posKeyFromScratch Z pos.board)
    (hcounts : ∀ q, pos.pieceCounts q = Board.pieceCount pos.board q) :
    (Position.doAction Z pos a).key = (Position.new Z (Board.erase pos.board a.2)).key ∧
    (∀ q, (Position.doAction Z pos a).pieceCounts q
        = pos.pieceCounts q - (if q = a.1 then a.2.card else 0)) := by
  constructor
  · exact doAction_key Z pos a hval hkey
  · intro q
    show (if q = a.1 then u8sub (pos.pieceCounts q) (a.2.card % 256) else pos.pieceCounts q)
      = pos.pieceCounts q - (if q = a.1 then a.2.card else 0)
    by_cases hq : q = a.1
    · rw [if_pos hq, if_pos hq, hq]
      have hcard : a.2.card ≤ Board.pieceCount pos.board a.1 := Finset.card_le_card hsub
      have hle : Board.pieceCount pos.board a.1 ≤ 48 := pieceCount_le_48 _ _
      have hc := hcounts a.1
      unfold u8sub
      omega
    · rw [if_neg hq, if_neg hq]
      omega

/-- Witness for C1: a two-column board where the capture of the two
bottom-row 1-pieces shifts column 2 leftward onto squares that stay
occupied with different colors. -/
theorem doAction_c1_witness :
    (Position.doAction (fun p sq => 1000 * p + sq)
        (Position.new (fun p sq => 1000 * p + sq)
          (fun c => if c = 0 then [1, 2] else if c = 1 then [1] else []))
        (1, ({0, 6} : Finset Nat))).key
      = (Position.new (fun p sq => 1000 * p + sq)
          (Board.erase (fun c => if c = 0 then [1, 2] else if c = 1 then [1] else [])
            ({0, 6} : Finset Nat))).key ∧
    (∀ q, (Position.doAction (fun p sq => 1000 * p + sq)
        (Position.new (fun p sq => 1000 * p + sq)
          (fun c => if c = 0 then [1, 2] else if c = 1 then [1] else []))
        (1, ({0, 6} : Finset Nat))).pieceCounts q
      = (Position.new (fun p sq => 1000 * p + sq)
          (fun c => if c = 0 then [1, 2] else if c = 1 then [1] else [])).pieceCounts q
        - (if q = 1 then ({0, 6} : Finset Nat).card else 0)) :=
  doAction_c1 (fun p sq => 1000 * p + sq)
    (Position.new (fun p sq => 1000 * p + sq)
      (fun c => if c = 0 then [1, 2] else if c = 1 then [1] else []))
    (1, ({0, 6} : Finset Nat))
    (by decide) (by decide) rfl (fun q => rfl)

/-! ### Exact single-board solver (src/src/solver.rs).

The 2^30-slot linear-probe hash table is embedded at the level of its
key-value content: a probe that finds the key's entry is `some`, a probe of
a vacant slot (which creates the provisional entry) is `none` plus an
insert. The bit-exact slot walk of the same table design is verified
separately in the solver_many section (claim C4). -/

def HashTable : Type := Nat → Option Nat

def htEmpty : HashTable := fun _ => none

def htInsert (t : HashTable) (k v : Nat) : HashTable :=
  fun x => if x = k then some v else t x

/-- The spec-level optimum: the true maximum additional gain from a board
(spec section 4.6), used to state that stored values are correct. -/
def maxGain (b : Board) : Nat :=
  if Board.isEmpty b then scorePerfect
  else ((Board.actions b).attach.map
    (fun a => scoreErase a.1.2.card + maxGain (Board.erase b a.1.2))).foldr Nat.max 0
termination_by Board.totalCount b
decreasing_by
  have := totalCount_erase_action b a.1 a.2
  omega

mutual

/-- `Solver::dfs` (src/src/solver.rs lines 69-100): perfect-clear check
before any table access, probe (a miss creates the provisional entry at
value 0), the action loop accumulating the running maximum, the terminal
shortcut `best == 0`, and the final `set_gain_max`. -/
def Solver.dfs (Z : Nat → Nat → Nat) (t : HashTable) (pos : Position) : Nat × HashTable :=
  if Board.isEmpty pos.board then (scorePerfect, t)
  else
    match t pos.key with
    | some gainMax => (gainMax, t)
    | none =>
      let r := Solver.dfsActs Z (htInsert t pos.key 0) pos (Board.actions pos.board).attach
      if r.1 = 0 then (0, r.2)
      else (r.1, htInsert r.2 pos.key r.1)
termination_by (Board.totalCount pos.board, 1, 0)
decreasing_by
  simp_wf
  apply Prod.Lex.right
  apply Prod.Lex.left
  omega

/-- The `for action in pos.actions()` loop of `Solver::dfs` with its
`chmax` accumulation, threading the table through the child searches. -/
def Solver.dfsActs (Z : Nat → Nat → Nat) (t : HashTable) (pos : Position)
    (acts : List {a : Nat × Finset Nat // a ∈ Board.actions pos.board}) : Nat × HashTable :=
  match acts with
  | [] => (0, t)
  | a :: rest =>
    let rc := Solver.dfs Z t (Position.doAction Z pos a.1)
    let rr := Solver.dfsActs Z rc.2 pos rest
    (Nat.max (scoreErase a.1.2.card + rc.1) rr.1, rr.2)
termination_by (Board.totalCount pos.board, 0, acts.length)
decreasing_by
  · simp_wf
    have := totalCount_erase_action pos.board a.1 a.2
    have heq : (Position.doAction Z pos a.1).board = Board.erase pos.board a.1.2 := rfl
    rw [heq]
    left
    omega
  · simp_wf
    apply Prod.Lex.right
    apply Prod.Lex.right
    omega

end

/-- Rust `Iterator::max_by_key`: the maximum by key, later elements taking
precedence on ties. -/
def maxByKeyLast {α : Type} (f : α → Nat) (l : List α) : Option α :=
  l.foldl (fun acc x => match acc with
    | none => some x
    | some y => if f y ≤ f x then some x else some y) none

theorem maxByKeyLast_mem {α : Type} (f : α → Nat) :
    ∀ (l : List α) (a : α), maxByKeyLast f l = some a → a ∈ l := by
  have key : ∀ (l : List α) (acc : Option α) (a : α),
      l.foldl (fun acc x => match acc with
        | none => some x
        | some y => if f y ≤ f x then some x else some y) acc = some a →
      a ∈ l ∨ acc = some a := by
    intro l
    induction l with
    | nil =>
      intro acc a h
      exact Or.inr h
    | cons x t ih =>
      intro acc a h
      rcases ih _ a h with hmem | hacc
      · exact Or.inl (List.mem_cons_of_mem x hmem)
      · rcases acc with _ | y
        · left
          have : x = a := by simpa using hacc
          rw [this]
          exact List.mem_cons_self a t
        · dsimp only at hacc
          by_cases hle : f y ≤ f x
          · rw [if_pos hle] at hacc
            left
            have : x = a := by simpa using hacc
            rw [this]
            exact List.mem_cons_self a t
          · rw [if_neg hle] at hacc
            exact Or.inr hacc
  intro l a h
  rcases key l none a h with hmem | hacc
  · exact hmem
  · exact absurd hacc (by simp)

/-- The child-gain lookup of the reconstruction loop (src/src/solver.rs
lines 44-56): perfect bonus for an empty child, otherwise the table entry;
a missing entry is the `unreachable!()` abort, embedded as `none`. -/
def childGain (t : HashTable) (posChild : Position) : Option Nat :=
  if Board.isEmpty posChild.board then some scorePerfect
  else match t posChild.key with
    | some g => some g
    | none => none

/-- Evaluating `gain_action + gain_child` for each action during the
`max_by_key` of the reconstruction loop; `none` if any child aborts. -/
def rateActions (Z : Nat → Nat → Nat) (t : HashTable) (pos : Position) :
    List {a : Nat × Finset Nat // a ∈ Board.actions pos.board} →
    Option (List ({a : Nat × Finset Nat // a ∈ Board.actions pos.board} × Nat))
  | [] => some []
  | a :: rest =>
    match childGain t (Position.doAction Z pos a.1) with
    | none => none
    | some g =>
      match rateActions Z t pos rest with
      | none => none
      | some rl => some ((a, scoreErase a.1.2.card + g) :: rl)

theorem rateActions_mem (Z : Nat → Nat → Nat) (t : HashTable) (pos : Position) :
    ∀ (l : List {a : Nat × Finset Nat // a ∈ Board.actions pos.board}) rl,
      rateActions Z t pos l = some rl → ∀ pr ∈ rl, pr.1 ∈ l := by
  intro l
  induction l with
  | nil =>
    intro rl h pr hpr
    have : rl = [] := by
      simpa [rateActions] using h.symm
    rw [this] at hpr
    exact absurd hpr (by simp)
  | cons a rest ih =>
    intro rl h pr hpr
    unfold rateActions at h
    rcases hcg : childGain t (Position.doAction Z pos a.1) with _ | g
    · rw [hcg] at h
      exact absurd h (by simp)
    · rw [hcg] at h
      rcases hra : rateActions Z t pos rest with _ | rl2
      · rw [hra] at h
        exact absurd h (by simp)
      · rw [hra] at h
        have hrl : rl = (a, scoreErase a.1.2.card + g) :: rl2 := by
          simpa using h.symm
        rw [hrl] at hpr
        rcases List.mem_cons.mp hpr with h1 | h2
        · rw [h1]
          exact List.mem_cons_self a rest
        · exact List.mem_cons_of_mem a (ih rl2 hra pr h2)

/-- The solution-reconstruction loop of `Solver::solve` (src/src/solver.rs
lines 37-63): repeatedly take the `max_by_key` action (ties to the later
action, as in Rust), record its least square, and advance; `none` embeds
the `unreachable!()` abort on a missing child entry. -/
def reconstruct (Z : Nat → Nat → Nat) (t : HashTable) (pos : Position) : Option (List Nat) :=
  match rateActions Z t pos (Board.actions pos.board).attach with
  | none => none
  | some rl =>
    match maxByKeyLast (fun pr => pr.2) rl with
    | none => some []
    | some pr =>
      (reconstruct Z t (Position.doAction Z pos pr.1.1)).map
        (fun rest => leastSquare pr.1.1.2 :: rest)
termination_by Board.totalCount pos.board
decreasing_by
  have hact : pr.1.1 ∈ Board.actions pos.board := pr.1.2
  have := totalCount_erase_action pos.board pr.1.1 hact
  have heq : (Position.doAction Z pos pr.1.1).board = Board.erase pos.board pr.1.1.2 := rfl
  rw [heq]
  omega

/-- `solve_problem` (src/src/solver.rs lines 10-19) with `Solver::solve`
(lines 33-66) inlined: the empty-board early return, a fresh table, the
root DFS, then reconstruction. -/
def solveProblem (Z : Nat → Nat → Nat) (b : Board) : Option (Nat × List Nat) :=
  if Board.isEmpty b then some (scorePerfect, [])
  else
    let pos := Position.new Z b
    let r := Solver.dfs Z htEmpty pos
    (reconstruct Z r.2 pos).map (fun sol => (r.1, sol))

/-! ### C2: solver base cases -/

theorem xorsum_zeros : ∀ l : List Nat, (∀ x ∈ l, x = 0) → xorsum l = 0 := by
  intro l
  induction l with
  | nil => intro _; rfl
  | cons x t ih =>
    intro h
    rw [xorsum_cons, h x (List.mem_cons_self x t), ih (fun y hy => h y (List.mem_cons_of_mem x hy))]
    exact Nat.xor_zero 0

theorem isEmpty_get_none (b : Board) (h : Board.isEmpty b = true) (sq : Nat) :
    Board.get b sq = none := by
  unfold Board.get
  by_cases hsq : sq < 48
  · rw [if_pos hsq]
    unfold Board.isEmpty at h
    rw [List.all_eq_true] at h
    have hcol := h (sq / 6) (by rw [List.mem_range]; omega)
    rw [List.isEmpty_iff] at hcol
    rw [hcol]
    rfl
  · rw [if_neg hsq]

theorem emptyBoard_key (Z : Nat → Nat → Nat) (b : Board) (h : Board.isEmpty b = true) :
    posKeyFromScratch Z b = 0 := by
  unfold posKeyFromScratch
  refine xorsum_zeros _ ?_
  intro x hx
  rw [List.mem_map] at hx
  obtain ⟨sq, _, hsq⟩ := hx
  rw [← hsq]
  unfold contrib
  rw [isEmpty_get_none b h sq]

theorem actions_attach_nil (b : Board) (h : Board.actions b = []) :
    (Board.actions b).attach = [] := by
  rw [List.attach_eq_nil_iff]
  exact h

theorem dfsActs_ge_one (Z : Nat → Nat → Nat) (t : HashTable) (pos : Position)
    (a : {x : Nat × Finset Nat // x ∈ Board.actions pos.board})
    (rest : List {x : Nat × Finset Nat // x ∈ Board.actions pos.board}) :
    1 ≤ (Solver.dfsActs Z t pos (a :: rest)).1 := by
  have hcard : 2 ≤ a.1.2.card := (actions_mem_spec pos.board a.1 a.2).2
  have hge : 1 ≤ scoreErase a.1.2.card := by
    unfold scoreErase
    exact Nat.one_le_pow _ _ (by omega)
  calc (1 : Nat) ≤ scoreErase a.1.2.card := hge
    _ ≤ scoreErase a.1.2.card
        + (Solver.dfs Z t (Position.doAction Z pos a.1)).1 := Nat.le_add_right _ _
    _ ≤ (Solver.dfsActs Z t pos (a :: rest)).1 := by
        rw [Solver.dfsActs]
        exact Nat.le_max_left _ _

/-- C2: `solve_problem` on an empty board returns (200, empty history)
before any table is touched; `dfs` returns the perfect-clear bonus for an
empty-board position before any table probe, leaving the table unchanged
(so the empty board, whose from-scratch key is 0, is never stored); and
for a non-empty position the loop maximum is 0 if and only if the position
has no legal action, in which case `dfs` on a probe miss returns 0 leaving
the provisional entry at value 0, which equals the true remaining gain. -/
theorem dfs_c2 (Z : Nat → Nat → Nat) :
    (∀ b : Board, Board.isEmpty b = true → solveProblem Z b = some (scorePerfect, [])) ∧
    (∀ b : Board, Board.isEmpty b = true → posKeyFromScratch Z b = 0) ∧
    (∀ (t : HashTable) (pos : Position), Board.isEmpty pos.board = true →
      Solver.dfs Z t pos = (scorePerfect, t)) ∧
    (∀ (t : HashTable) (pos : Position), Board.isEmpty pos.board = false →
      ((Solver.dfsActs Z t pos (Board.actions pos.board).attach).1 = 0
        ↔ Board.actions pos.board = []) ∧
      (t pos.key = none → Board.actions pos.board = [] →
        Solver.dfs Z t pos = (0, htInsert t pos.key 0) ∧ maxGain pos.board = 0)) := by
  refine ⟨?_, fun b h => emptyBoard_key Z b h, ?_, ?_⟩
  · intro b h
    unfold solveProblem
    rw [if_pos h]
  · intro t pos h
    rw [Solver.dfs, if_pos h]
  · intro t pos h
    constructor
    · constructor
      · intro h0
        by_contra hne
        obtain ⟨a, rest, hl⟩ := List.exists_cons_of_ne_nil
          (fun hnil => hne ((List.attach_eq_nil_iff).mp hnil))
        rw [hl] at h0
        have := dfsActs_ge_one Z t pos a rest
        omega
      · intro hnil
        rw [actions_attach_nil pos.board hnil, Solver.dfsActs]
    · intro hnone hnil
      constructor
      · rw [Solver.dfs, if_neg (by rw [h]; simp), hnone]
        rw [actions_attach_nil pos.board hnil]
        rw [Solver.dfsActs]
        simp
      · rw [maxGain, if_neg (by rw [h]; simp), actions_attach_nil pos.board hnil]
        rfl

/-- Witness for C2 at the empty board, a fresh table, and a terminal
non-empty board with two isolated single pieces of different colors. -/
theorem dfs_c2_witness :
    solveProblem (fun p sq => 1000 * p + sq) (fun _ => []) = some (scorePerfect, []) ∧
    posKeyFromScratch (fun p sq => 1000 * p + sq) (fun _ => []) = 0 ∧
    Solver.dfs (fun p sq => 1000 * p + sq) htEmpty
        (Position.new (fun p sq => 1000 * p + sq) (fun _ => []))
      = (scorePerfect, htEmpty) ∧
    ((Solver.dfsActs (fun p sq => 1000 * p + sq) htEmpty
        (Position.new (fun p sq => 1000 * p + sq)
          (fun c => if c = 0 then [1] else if c = 1 then [2] else []))
        (Board.actions (fun c => if c = 0 then [1] else if c = 1 then [2] else [])).attach).1 = 0
      ↔ Board.actions (fun c => if c = 0 then [1] else if c = 1 then [2] else []) = []) ∧
    (Solver.dfs (fun p sq => 1000 * p + sq) htEmpty
        (Position.new (fun p sq => 1000 * p + sq)
          (fun c => if c = 0 then [1] else if c = 1 then [2] else []))
      = (0, htInsert htEmpty
          (Position.new (fun p sq => 1000 * p + sq)
            (fun c => if c = 0 then [1] else if c = 1 then [2] else [])).key 0) ∧
      maxGain (fun c => if c = 0 then [1] else if c = 1 then [2] else []) = 0) := by
  have h := dfs_c2 (fun p sq => 1000 * p + sq)
  have h4 := h.2.2.2 htEmpty
    (Position.new (fun p sq => 1000 * p + sq)
      (fun c => if c = 0 then [1] else if c = 1 then [2] else [])) (by decide)
  exact ⟨h.1 _ (by decide), h.2.1 _ (by decide), h.2.2.1 htEmpty _ (by decide),
    h4.1, h4.2 rfl (by decide)⟩

/-! ### Sweep solver DFS (src/src/solver_many.rs lines 159-190) at the
same key-value level, with the generational table: an entry is (generation,
gain); a probe treats a generation-mismatched entry as vacant and
overwrites it with the provisional entry (claim C4 verifies the bit-level
slot walk of this same table). -/

/-- The generational table at key-value level: generation counter, entry
count, and the entries keyed by the position key. -/
structure GenTable where
  time : Nat
  entryCount : Nat
  map : Nat → Option (Nat × Nat)

/-- Materializing the provisional entry `DpEntry::new(time, key, 0)` of
`DpTable::probe` (src/src/solver_many.rs lines 371-382). -/
def gtCreate (T : GenTable) (k : Nat) : GenTable :=
  { T with
    entryCount := T.entryCount + 1,
    map := fun x => if x = k then some (T.time, 0) else T.map x }

/-- `DpTable::set_gain_max` (src/src/solver_many.rs lines 396-401):
overwrite the gain, preserving the entry's generation field. -/
def gtSet (T : GenTable) (k v : Nat) : GenTable :=
  { T with
    map := fun x => if x = k then (T.map x).map (fun pr => (pr.1, v)) else T.map x }

/-- `DpTable::probe` at key-value level: a current-generation entry is
Found; an absent or stale entry becomes the provisional entry and the
probe reports vacant (`Created`). -/
def gtProbe (T : GenTable) (key : Nat) : Option Nat × GenTable :=
  match T.map key with
  | some e => if e.1 = T.time then (some e.2, T) else (none, gtCreate T key)
  | none => (none, gtCreate T key)

mutual

/-- `Solver::dfs` of src/src/solver_many.rs lines 159-190: identical in
structure to the solver.rs DFS, over the generational table. -/
def ManySolver.dfs (Z : Nat → Nat → Nat) (T : GenTable) (pos : Position) : Nat × GenTable :=
  if Board.isEmpty pos.board then (scorePerfect, T)
  else
    match (gtProbe T pos.key).1 with
    | some gainMax => (gainMax, (gtProbe T pos.key).2)
    | none =>
      let r := ManySolver.dfsActs Z (gtProbe T pos.key).2 pos (Board.actions pos.board).attach
      if r.1 = 0 then (0, r.2)
      else (r.1, gtSet r.2 pos.key r.1)
termination_by (Board.totalCount pos.board, 1, 0)
decreasing_by
  simp_wf
  apply Prod.Lex.right
  apply Prod.Lex.left
  omega

/-- The action loop of the sweep solver's DFS. -/
def ManySolver.dfsActs (Z : Nat → Nat → Nat) (T : GenTable) (pos : Position)
    (acts : List {a : Nat × Finset Nat // a ∈ Board.actions pos.board}) : Nat × GenTable :=
  match acts with
  | [] => (0, T)
  | a :: rest =>
    let rc := ManySolver.dfs Z T (Position.doAction Z pos a.1)
    let rr := ManySolver.dfsActs Z rc.2 pos rest
    (Nat.max (scoreErase a.1.2.card + rc.1) rr.1, rr.2)
termination_by (Board.totalCount pos.board, 0, acts.length)
decreasing_by
  · simp_wf
    have := totalCount_erase_action pos.board a.1 a.2
    have heq : (Position.doAction Z pos a.1).board = Board.erase pos.board a.1.2 := rfl
    rw [heq]
    left
    omega
  · simp_wf
    apply Prod.Lex.right
    apply Prod.Lex.right
    omega

end

/-! ### C10: equivalence of the two exact DFS implementations -/

/-- The correspondence between a generational table and a plain table: the
plain table holds exactly the current-generation entries. -/
def TableRel (T : GenTable) (t : HashTable) : Prop :=
  ∀ k, t k = match T.map k with
    | some e => if e.1 = T.time then some e.2 else none
    | none => none

theorem tableRel_create (T : GenTable) (t : HashTable) (hrel : TableRel T t) (k : Nat) :
    TableRel (gtCreate T k) (htInsert t k 0) := by
  intro x
  unfold gtCreate htInsert
  by_cases hx : x = k
  · simp [hx]
  · simp only [hx, if_false, if_neg hx]
    exact hrel x

theorem tableRel_set (T : GenTable) (t : HashTable) (hrel : TableRel T t) (k v : Nat)
    (hk : ∃ e, T.map k = some e ∧ e.1 = T.time) :
    TableRel (gtSet T k v) (htInsert t k v) := by
  intro x
  unfold gtSet htInsert
  obtain ⟨e, he, ht⟩ := hk
  by_cases hx : x = k
  · simp only [hx, if_pos rfl]
    rw [he]
    simp [ht]
  · simp only [hx, if_false, if_neg hx]
    exact hrel x

/-- The two exact DFS implementations compute the same gain and keep the
two table models in correspondence, for positions of bounded piece count. -/
theorem dfs_equiv_aux (Z : Nat → Nat → Nat) :
    ∀ n (pos : Position), Board.totalCount pos.board ≤ n →
      (∀ (acts : List {a : Nat × Finset Nat // a ∈ Board.actions pos.board})
        (t : HashTable) (T : GenTable), TableRel T t →
        (ManySolver.dfsActs Z T pos acts).1 = (Solver.dfsActs Z t pos acts).1 ∧
        TableRel (ManySolver.dfsActs Z T pos acts).2 (Solver.dfsActs Z t pos acts).2 ∧
        (ManySolver.dfsActs Z T pos acts).2.time = T.time ∧
        (∀ k, (t k).isSome = true → ((Solver.dfsActs Z t pos acts).2 k).isSome = true)) ∧
      (∀ (t : HashTable) (T : GenTable), TableRel T t →
        (ManySolver.dfs Z T pos).1 = (Solver.dfs Z t pos).1 ∧
        TableRel (ManySolver.dfs Z T pos).2 (Solver.dfs Z t pos).2 ∧
        (ManySolver.dfs Z T pos).2.time = T.time ∧
        (∀ k, (t k).isSome = true → ((Solver.dfs Z t pos).2 k).isSome = true)) := by
  intro n
  induction n using Nat.strong_induction_on with
  | _ n ih =>
  intro pos hpos
  have hactsPart : ∀ (acts : List {a : Nat × Finset Nat // a ∈ Board.actions pos.board})
      (t : HashTable) (T : GenTable), TableRel T t →
      (ManySolver.dfsActs Z T pos acts).1 = (Solver.dfsActs Z t pos acts).1 ∧
      TableRel (ManySolver.dfsActs Z T pos acts).2 (Solver.dfsActs Z t pos acts).2 ∧
      (ManySolver.dfsActs Z T pos acts).2.time = T.time ∧
      (∀ k, (t k).isSome = true → ((Solver.dfsActs Z t pos acts).2 k).isSome = true) := by
    intro acts
    induction acts with
    | nil =>
      intro t T hrel
      refine ⟨?_, ?_, ?_, ?_⟩
      · simp only [ManySolver.dfsActs, Solver.dfsActs]
      · simp only [ManySolver.dfsActs, Solver.dfsActs]
        exact hrel
      · simp only [ManySolver.dfsActs]
      · intro k hk
        simp only [Solver.dfsActs]
        exact hk
    | cons a rest ihrest =>
      intro t T hrel
      have hctc : Board.totalCount (Position.doAction Z pos a.1).board < n := by
        have := totalCount_erase_action pos.board a.1 a.2
        have heq : (Position.doAction Z pos a.1).board = Board.erase pos.board a.1.2 := rfl
        rw [heq]
        omega
      have hchild := (ih _ hctc (Position.doAction Z pos a.1) le_rfl).2 t T hrel
      have hrest := ihrest (Solver.dfs Z t (Position.doAction Z pos a.1)).2
        (ManySolver.dfs Z T (Position.doAction Z pos a.1)).2 hchild.2.1
      simp only [ManySolver.dfsActs, Solver.dfsActs]
      refine ⟨?_, hrest.2.1, ?_, ?_⟩
      · rw [hchild.1, hrest.1]
      · rw [hrest.2.2.1, hchild.2.2.1]
      · intro k hk
        exact hrest.2.2.2 k (hchild.2.2.2 k hk)
  refine ⟨hactsPart, ?_⟩
  intro t T hrel
  by_cases hemp : Board.isEmpty pos.board = true
  · rw [ManySolver.dfs, Solver.dfs, if_pos hemp, if_pos hemp]
    exact ⟨rfl, hrel, rfl, fun k hk => hk⟩
  · have hempf : Board.isEmpty pos.board = false := by
      cases h : Board.isEmpty pos.board
      · rfl
      · exact absurd h hemp
    have hcases : (gtProbe T pos.key = (none, gtCreate T pos.key) ∧ t pos.key = none) ∨
        (∃ g, gtProbe T pos.key = (some g, T) ∧ t pos.key = some g) := by
      have hk := hrel pos.key
      rcases hT : T.map pos.key with _ | e
      · rw [hT] at hk
        left
        refine ⟨?_, hk⟩
        unfold gtProbe
        rw [hT]
      · rw [hT] at hk
        dsimp only at hk
        by_cases he : e.1 = T.time
        · right
          refine ⟨e.2, ?_, ?_⟩
          · unfold gtProbe
            rw [hT]
            dsimp only
            rw [if_pos he]
          · rw [hk, if_pos he]
        · left
          refine ⟨?_, ?_⟩
          · unfold gtProbe
            rw [hT]
            dsimp only
            rw [if_neg he]
          · rw [hk, if_neg he]
    rcases hcases with ⟨hprobe, htk⟩ | ⟨g, hprobe, htk⟩
    · have hA := hactsPart (Board.actions pos.board).attach (htInsert t pos.key 0)
        (gtCreate T pos.key) (tableRel_create T t hrel pos.key)
      rw [ManySolver.dfs, Solver.dfs, if_neg hemp, if_neg hemp, hprobe, htk]
      dsimp only
      by_cases hzM : (ManySolver.dfsActs Z (gtCreate T pos.key) pos
          (Board.actions pos.board).attach).1 = 0
      · have hzP : (Solver.dfsActs Z (htInsert t pos.key 0) pos
            (Board.actions pos.board).attach).1 = 0 := by
          rw [← hA.1]
          exact hzM
        rw [if_pos hzM, if_pos hzP]
        refine ⟨rfl, hA.2.1, ?_, ?_⟩
        · exact hA.2.2.1
        · intro k hk
          refine hA.2.2.2 k ?_
          simp only [htInsert]
          by_cases hkk : k = pos.key
          · rw [if_pos hkk]
            rfl
          · rw [if_neg hkk]
            exact hk
      · have hzP : ¬ (Solver.dfsActs Z (htInsert t pos.key 0) pos
            (Board.actions pos.board).attach).1 = 0 := by
          rw [← hA.1]
          exact hzM
        rw [if_neg hzM, if_neg hzP]
        have hsome : ((Solver.dfsActs Z (htInsert t pos.key 0) pos
            (Board.actions pos.board).attach).2 pos.key).isSome = true := by
          refine hA.2.2.2 pos.key ?_
          simp [htInsert]
        have hentry : ∃ e, (ManySolver.dfsActs Z (gtCreate T pos.key) pos
            (Board.actions pos.board).attach).2.map pos.key = some e ∧
            e.1 = (ManySolver.dfsActs Z (gtCreate T pos.key) pos
              (Board.actions pos.board).attach).2.time := by
          have hr := hA.2.1 pos.key
          rcases hg : (Solver.dfsActs Z (htInsert t pos.key 0) pos
              (Board.actions pos.board).attach).2 pos.key with _ | gg
          · rw [hg] at hsome
            exact absurd hsome (by simp)
          · rw [hg] at hr
            rcases hm : (ManySolver.dfsActs Z (gtCreate T pos.key) pos
                (Board.actions pos.board).attach).2.map pos.key with _ | ee
            · rw [hm] at hr
              exact absurd hr (by simp)
            · rw [hm] at hr
              dsimp only at hr
              refine ⟨ee, rfl, ?_⟩
              by_cases hee : ee.1 = (ManySolver.dfsActs Z (gtCreate T pos.key) pos
                  (Board.actions pos.board).attach).2.time
              · exact hee
              · rw [if_neg hee] at hr
                exact absurd hr (by simp)
        refine ⟨hA.1, ?_, ?_, ?_⟩
        · rw [hA.1]
          exact tableRel_set _ _ hA.2.1 pos.key _ hentry
        · show (ManySolver.dfsActs Z (gtCreate T pos.key) pos
              (Board.actions pos.board).attach).2.time = T.time
          exact hA.2.2.1
        · intro k hk
          simp only [htInsert]
          by_cases hkk : k = pos.key
          · rw [if_pos hkk]
            rfl
          · rw [if_neg hkk]
            refine hA.2.2.2 k ?_
            simp only [htInsert]
            by_cases hkk2 : k = pos.key
            · exact absurd hkk2 hkk
            · rw [if_neg hkk2]
              exact hk
    · rw [ManySolver.dfs, Solver.dfs, if_neg hemp, if_neg hemp, hprobe, htk]
      dsimp only
      exact ⟨rfl, hrel, rfl, fun k hk => hk⟩

/-- C10: the exact DFS of the single-board solver with a fresh table and
the exact DFS of the sweep solver in a fresh generation (no entry carries
the current generation, however the slots are populated) compute the same
gain for every position. -/
theorem dfs_c10 (Z : Nat → Nat → Nat) (pos : Position) (T : GenTable)
    (hfresh : ∀ k e, T.map k = some e → e.1 ≠ T.time) :
    (ManySolver.dfs Z T pos).1 = (Solver.dfs Z htEmpty pos).1 := by
  have hrel : TableRel T htEmpty := by
    intro k
    rcases hk : T.map k with _ | e
    · rfl
    · show htEmpty k = _
      dsimp only
      rw [if_neg (hfresh k e hk)]
      rfl
  exact ((dfs_equiv_aux Z (Board.totalCount pos.board) pos le_rfl).2 htEmpty T hrel).1

/-- Witness for C10 on a one-component board against a table populated
with a stale entry from a previous generation. -/
theorem dfs_c10_witness :
    (ManySolver.dfs (fun p sq => 1000 * p + sq)
        (GenTable.mk 5 0 (fun k => if k = 3 then some (4, 7) else none))
        (Position.new (fun p sq => 1000 * p + sq)
          (fun c => if c = 0 then [1, 1] else []))).1
      = (Solver.dfs (fun p sq => 1000 * p + sq) htEmpty
          (Position.new (fun p sq => 1000 * p + sq)
            (fun c => if c = 0 then [1, 1] else []))).1 :=
  dfs_c10 (fun p sq => 1000 * p + sq)
    (Position.new (fun p sq => 1000 * p + sq) (fun c => if c = 0 then [1, 1] else []))
    (GenTable.mk 5 0 (fun k => if k = 3 then some (4, 7) else none))
    (by
      intro k e he
      dsimp only at he ⊢
      by_cases hk : k = 3
      · rw [if_pos hk] at he
        injection he with h2
        rw [← h2]
        decide
      · rw [if_neg hk] at he
        exact absurd he (by simp))

/-! ### Canonical board representation.

The sweep (pruning) solver of src/src/solver2.rs memoizes by the 64-bit
Zobrist key. Spec section 4.5 explicitly excludes hash collisions from the
correctness guarantee, so the table is embedded in the standard
no-collision idealization: it is keyed by the board content itself (the
eight column stacks). Everything the solver computes depends only on the
eight columns, which the congruence lemmas below make precise. -/

def boardRep (b : Board) : List (List Nat) := (List.range 8).map b

def repBoard (rep : List (List Nat)) : Board := fun c => rep.getD c []

/-- Two boards agreeing on columns 0..7 (in particular, a board and the
canonical board of its representation). -/
def WindowEq (b b2 : Board) : Prop := ∀ c, c < 8 → b c = b2 c

theorem windowEq_repBoard (b : Board) : WindowEq b (repBoard (boardRep b)) := by
  intro c hc
  unfold repBoard boardRep
  rw [List.getD_eq_getElem?_getD]
  rw [List.getElem?_map]
  rw [List.getElem?_range hc]
  rfl

theorem windowEq_of_rep_eq {b b2 : Board} (h : boardRep b = boardRep b2) :
    WindowEq b b2 := by
  intro c hc
  have h1 : (boardRep b).getD c [] = (boardRep b2).getD c [] := by rw [h]
  have h2 : ∀ bb : Board, (boardRep bb).getD c [] = bb c := by
    intro bb
    unfold boardRep
    rw [List.getD_eq_getElem?_getD, List.getElem?_map, List.getElem?_range hc]
    rfl
  rw [h2 b, h2 b2] at h1
  exact h1

theorem list_all_congr {l : List Nat} {f g : Nat → Bool} (h : ∀ a ∈ l, f a = g a) :
    l.all f = l.all g := by
  induction l with
  | nil => rfl
  | cons x xs ih =>
    rw [List.all_cons, List.all_cons, h x (by simp),
      ih (fun a ha => h a (List.mem_cons_of_mem x ha))]

theorem get_windowEq {b b2 : Board} (h : WindowEq b b2) :
    ∀ sq, Board.get b sq = Board.get b2 sq := by
  intro sq
  unfold Board.get
  by_cases hsq : sq < 48
  · rw [if_pos hsq, if_pos hsq, h (sq / 6) (by omega)]
  · rw [if_neg hsq, if_neg hsq]

theorem isEmpty_windowEq {b b2 : Board} (h : WindowEq b b2) :
    Board.isEmpty b = Board.isEmpty b2 := by
  unfold Board.isEmpty
  refine list_all_congr ?_
  intro c hc
  rw [List.mem_range] at hc
  rw [h c hc]

theorem pieceMask_windowEq {b b2 : Board} (h : WindowEq b b2) (p : Nat) :
    Board.pieceMask b p = Board.pieceMask b2 p := by
  unfold Board.pieceMask
  refine Finset.filter_congr ?_
  intro sq _
  rw [get_windowEq h sq]

theorem pieceCount_windowEq {b b2 : Board} (h : WindowEq b b2) (p : Nat) :
    Board.pieceCount b p = Board.pieceCount b2 p := by
  unfold Board.pieceCount
  rw [pieceMask_windowEq h p]

theorem componentsList_windowEq {b b2 : Board} (h : WindowEq b b2) :
    Board.componentsList b = Board.componentsList b2 := by
  unfold Board.componentsList
  refine List.filterMap_congr ?_
  intro sq _
  rw [get_windowEq h sq]
  rcases Board.get b2 sq with _ | p
  · rfl
  · dsimp only
    rw [pieceMask_windowEq h p]

theorem actions_windowEq {b b2 : Board} (h : WindowEq b b2) :
    Board.actions b = Board.actions b2 := by
  unfold Board.actions
  rw [componentsList_windowEq h]

theorem erase_windowEq {b b2 : Board} (h : WindowEq b b2) (mask : Finset Nat) :
    Board.erase b mask = Board.erase b2 mask := by
  have hpack : Board.packedCols b mask = Board.packedCols b2 mask := by
    unfold Board.packedCols
    refine List.map_congr_left ?_
    intro c hc
    rw [List.mem_range] at hc
    rw [h c hc]
  funext c
  unfold Board.erase Board.survivorCols
  rw [hpack]

theorem totalCount_windowEq {b b2 : Board} (h : WindowEq b b2) :
    Board.totalCount b = Board.totalCount b2 := by
  unfold Board.totalCount
  refine Finset.sum_congr rfl ?_
  intro c hc
  rw [Finset.mem_range] at hc
  rw [h c hc]

theorem valuesWF_windowEq {b b2 : Board} (h : WindowEq b b2) :
    Board.valuesWF b = Board.valuesWF b2 := by
  unfold Board.valuesWF
  refine list_all_congr ?_
  intro c hc
  rw [List.mem_range] at hc
  rw [h c hc]

/-- `maxGain` with the `attach` plumbing removed. -/
theorem maxGain_eq_map (b : Board) :
    maxGain b = if Board.isEmpty b then scorePerfect
      else ((Board.actions b).map
        (fun a => scoreErase a.2.card + maxGain (Board.erase b a.2))).foldr Nat.max 0 := by
  rw [maxGain]
  by_cases h : Board.isEmpty b
  · rw [if_pos h, if_pos h]
  · rw [if_neg h, if_neg h]
    rw [List.attach_map_val (Board.actions b)
      (fun a => scoreErase a.2.card + maxGain (Board.erase b a.2))]

/-- `maxGain` depends only on the eight visible columns. -/
theorem maxGain_windowEq {b b2 : Board} (h : WindowEq b b2) :
    maxGain b = maxGain b2 := by
  rw [maxGain_eq_map, maxGain_eq_map, isEmpty_windowEq h, actions_windowEq h]
  by_cases he : Board.isEmpty b2
  · rw [if_pos he, if_pos he]
  · rw [if_neg he, if_neg he]
    congr 1
    refine List.map_congr_left ?_
    intro a _
    rw [erase_windowEq h a.2]

/-- A non-empty position without legal actions yields no further gain. -/
theorem maxGain_terminal (b : Board) (hne : Board.isEmpty b = false)
    (hnil : Board.actions b = []) : maxGain b = 0 := by
  rw [maxGain_eq_map, hne, hnil]
  simp

/-- Modelled from the spec: solver2.rs calls `pos.score_upper_bound()`,
which `position.rs` under src/ does not define; spec section 4.6 describes
it as the depth-0 leaf estimate, and the sweep solver computes exactly
that estimate in `score_upper_bound_leaf` (src/src/solver_many.rs lines
220-241), translated here: every color with at least two pieces is
assumed clearable in one stroke, and a color with exactly one piece
forfeits the perfect bonus. -/
def leafEst (b : Board) : Nat :=
  (∑ i ∈ Finset.range 5,
    if 2 ≤ Board.pieceCount b (i + 1) then scoreErase (Board.pieceCount b (i + 1)) else 0) +
  (if ∀ i ∈ Finset.range 5, Board.pieceCount b (i + 1) ≠ 1 then scorePerfect else 0)

theorem leafEst_windowEq {b b2 : Board} (h : WindowEq b b2) :
    leafEst b = leafEst b2 := by
  unfold leafEst
  have hpc : ∀ i : Nat, Board.pieceCount b (i + 1) = Board.pieceCount b2 (i + 1) :=
    fun i => pieceCount_windowEq h (i + 1)
  simp only [hpc]

theorem leafEst_empty (b : Board) (h : Board.isEmpty b = true) :
    leafEst b = scorePerfect := by
  have hpc : ∀ p, Board.pieceCount b p = 0 := by
    intro p
    unfold Board.pieceCount
    rw [Finset.card_eq_zero]
    refine Finset.eq_empty_of_forall_not_mem ?_
    intro sq hsq
    rw [mem_pieceMask] at hsq
    rw [isEmpty_get_none b h sq] at hsq
    exact absurd hsq.2 (by simp)
  unfold leafEst
  simp [hpc]

/-- The piece of a legal action is a stored board value, hence in 1..5. -/
theorem action_piece_range (b : Board) (hwf : Board.valuesWF b = true)
    {a : Nat × Finset Nat} (ha : a ∈ Board.actions b) : 1 ≤ a.1 ∧ a.1 ≤ 5 := by
  unfold Board.actions at ha
  have hmem := List.mem_of_mem_filter ha
  obtain ⟨sq, hget, _, _⟩ := mem_componentsList b a.1 a.2 hmem
  exact valuesWF_get b hwf sq a.1 hget

theorem action_pieceCount (b : Board) {a : Nat × Finset Nat}
    (ha : a ∈ Board.actions b) : 2 ≤ Board.pieceCount b a.1 := by
  obtain ⟨hsub, hcard⟩ := actions_mem_spec b a ha
  have := Finset.card_le_card hsub
  unfold Board.pieceCount
  omega

theorem scoreErase_mono {x y : Nat} (h : x ≤ y) : scoreErase x ≤ scoreErase y :=
  Nat.pow_le_pow_left (Nat.sub_le_sub_right h 1) 2

theorem scoreErase_pos {n : Nat} (h : 2 ≤ n) : 1 ≤ scoreErase n := by
  unfold scoreErase
  exact Nat.one_le_pow _ _ (by omega)

/-- `(k-1)^2 + (m-1)^2 <= (k+m-1)^2` for `k, m >= 2`: clearing a color in
two strokes never beats clearing it in one. -/
theorem scoreErase_superadd {k m : Nat} (hk : 2 ≤ k) (hm : 2 ≤ m) :
    scoreErase k + scoreErase m ≤ scoreErase (k + m) := by
  obtain ⟨x, rfl⟩ := Nat.exists_eq_add_of_le hk
  obtain ⟨y, rfl⟩ := Nat.exists_eq_add_of_le hm
  unfold scoreErase
  have h1 : 2 + x - 1 = x + 1 := by omega
  have h2 : 2 + y - 1 = y + 1 := by omega
  have h3 : 2 + x + (2 + y) - 1 = x + y + 3 := by omega
  rw [h1, h2, h3]
  nlinarith [Nat.zero_le (x * y)]

theorem leafEst_pos_of_action (b : Board) (hwf : Board.valuesWF b = true)
    {a : Nat × Finset Nat} (ha : a ∈ Board.actions b) : 1 ≤ leafEst b := by
  obtain ⟨h1, h5⟩ := action_piece_range b hwf ha
  have h2 := action_pieceCount b ha
  unfold leafEst
  have hmem : a.1 - 1 ∈ Finset.range 5 := by
    rw [Finset.mem_range]
    omega
  have heq : a.1 - 1 + 1 = a.1 := by omega
  have hterm : 1 ≤ (if 2 ≤ Board.pieceCount b (a.1 - 1 + 1)
      then scoreErase (Board.pieceCount b (a.1 - 1 + 1)) else 0) := by
    rw [heq, if_pos h2]
    exact scoreErase_pos h2
  have hle : (if 2 ≤ Board.pieceCount b (a.1 - 1 + 1)
        then scoreErase (Board.pieceCount b (a.1 - 1 + 1)) else 0)
      ≤ ∑ i ∈ Finset.range 5, (if 2 ≤ Board.pieceCount b (i + 1)
        then scoreErase (Board.pieceCount b (i + 1)) else 0) :=
    @Finset.single_le_sum Nat Nat _
      (fun i => if 2 ≤ Board.pieceCount b (i + 1)
        then scoreErase (Board.pieceCount b (i + 1)) else 0)
      (Finset.range 5) (fun i _ => Nat.zero_le _) (a.1 - 1) hmem
  omega

/-- Contrapositive form of the `finished` test of solver2.rs (line 108):
a zero leaf estimate means no legal action. -/
theorem actions_nil_of_leafEst_zero (b : Board) (hwf : Board.valuesWF b = true)
    (h : leafEst b = 0) : Board.actions b = [] := by
  rcases hact : Board.actions b with _ | ⟨a, rest⟩
  · rfl
  · have ha : a ∈ Board.actions b := by
      rw [hact]
      exact List.mem_cons_self a rest
    have := leafEst_pos_of_action b hwf ha
    omega

/-! ### Per-color counting through `erase` (for the leaf-estimate algebra) -/

/-- Occurrences of the value `p` in a column stack. -/
def colCount (p : Nat) : List Nat → Nat
  | [] => 0
  | q :: rest => (if q = p then 1 else 0) + colCount p rest

/-- Mask squares of column `c` (head at row `r`) holding the value `p`. -/
def removedColor (p : Nat) (mask : Finset Nat) (c : Nat) : Nat → List Nat → Nat
  | _, [] => 0
  | r, q :: rest =>
    (if 6 * c + r ∈ mask ∧ q = p then 1 else 0) + removedColor p mask c (r + 1) rest

theorem eraseColumnAux_color (p : Nat) (mask : Finset Nat) (c : Nat) :
    ∀ l r, colCount p (eraseColumnAux mask c r l) + removedColor p mask c r l
      = colCount p l := by
  intro l
  induction l with
  | nil => intro r; rfl
  | cons q rest ih =>
    intro r
    unfold eraseColumnAux removedColor
    have := ih (r + 1)
    by_cases h : 6 * c + r ∈ mask
    · rw [if_pos h]
      have hif : (if 6 * c + r ∈ mask ∧ q = p then (1 : Nat) else 0)
          = (if q = p then 1 else 0) := by
        by_cases hq : q = p
        · rw [if_pos ⟨h, hq⟩, if_pos hq]
        · rw [if_neg (fun hc => hq hc.2), if_neg hq]
      rw [hif]
      show colCount p (eraseColumnAux mask c (r + 1) rest)
          + ((if q = p then 1 else 0) + removedColor p mask c (r + 1) rest)
        = (if q = p then 1 else 0) + colCount p rest
      omega
    · rw [if_neg h]
      have hif : (if 6 * c + r ∈ mask ∧ q = p then (1 : Nat) else 0) = 0 := by
        rw [if_neg (fun hc => h hc.1)]
      rw [hif]
      show (if q = p then 1 else 0) + colCount p (eraseColumnAux mask c (r + 1) rest)
          + (0 + removedColor p mask c (r + 1) rest)
        = (if q = p then 1 else 0) + colCount p rest
      omega

theorem count_eq_sum (p : Nat) :
    ∀ l : List Nat,
      colCount p l = ∑ i ∈ Finset.range l.length, (if l[i]? = some p then 1 else 0) := by
  intro l
  induction l with
  | nil => rfl
  | cons q rest ih =>
    show (if q = p then 1 else 0) + colCount p rest = _
    rw [List.length_cons, Finset.sum_range_succ', ih]
    have hcong : ∀ i ∈ Finset.range rest.length,
        (if (q :: rest)[i + 1]? = some p then (1 : Nat) else 0)
          = (if rest[i]? = some p then 1 else 0) := by
      intro i _
      rw [List.getElem?_cons_succ]
    rw [Finset.sum_congr rfl hcong]
    have h0 : (if (q :: rest)[0]? = some p then (1 : Nat) else 0)
        = (if q = p then 1 else 0) := by
      rw [List.getElem?_cons_zero]
      by_cases hq : q = p
      · rw [if_pos (by rw [hq]), if_pos hq]
      · rw [if_neg (fun hc => hq (by simpa using hc)), if_neg hq]
    rw [h0]
    omega

theorem removedColor_eq_sum (p : Nat) (mask : Finset Nat) (c : Nat) :
    ∀ l r, removedColor p mask c r l
      = ∑ i ∈ Finset.range l.length,
          (if 6 * c + (r + i) ∈ mask ∧ l[i]? = some p then 1 else 0) := by
  intro l
  induction l with
  | nil => intro r; rfl
  | cons q rest ih =>
    intro r
    show (if 6 * c + r ∈ mask ∧ q = p then 1 else 0) + removedColor p mask c (r + 1) rest = _
    rw [List.length_cons, Finset.sum_range_succ', ih (r + 1)]
    have hcong : ∀ i ∈ Finset.range rest.length,
        (if 6 * c + (r + (i + 1)) ∈ mask ∧ (q :: rest)[i + 1]? = some p then (1 : Nat) else 0)
          = (if 6 * c + (r + 1 + i) ∈ mask ∧ rest[i]? = some p then 1 else 0) := by
      intro i _
      have harith : 6 * c + (r + (i + 1)) = 6 * c + (r + 1 + i) := by omega
      rw [harith, List.getElem?_cons_succ]
    rw [Finset.sum_congr rfl hcong]
    have h0 : (if 6 * c + (r + 0) ∈ mask ∧ (q :: rest)[0]? = some p then (1 : Nat) else 0)
        = (if 6 * c + r ∈ mask ∧ q = p then 1 else 0) := by
      have harith : 6 * c + (r + 0) = 6 * c + r := by omega
      rw [harith, List.getElem?_cons_zero]
      by_cases hq : q = p
      · by_cases hm : 6 * c + r ∈ mask
        · rw [if_pos ⟨hm, by rw [hq]⟩, if_pos ⟨hm, hq⟩]
        · rw [if_neg (fun hc => hm hc.1), if_neg (fun hc => hm hc.1)]
      · rw [if_neg (fun hc => hq (by simpa using hc.2)), if_neg (fun hc => hq hc.2)]
    rw [h0]
    omega

theorem mask_inter_pieceMask (b : Board) (mask : Finset Nat) (p : Nat) :
    mask ∩ Board.pieceMask b p = (Finset.range 48).filter
      (fun sq => sq ∈ mask ∧ Board.get b sq = some p) := by
  ext sq
  simp only [Board.pieceMask, Finset.mem_inter, Finset.mem_filter, Finset.mem_range]
  tauto

theorem removed_color_total (b : Board) (mask : Finset Nat) (p : Nat) :
    ∑ c ∈ Finset.range 8, removedColor p mask c 0 ((b c).take 6)
      = (mask ∩ Board.pieceMask b p).card := by
  rw [mask_inter_pieceMask, Finset.card_filter, sum_range48]
  refine Finset.sum_congr rfl ?_
  intro c hc
  rw [Finset.mem_range] at hc
  rw [removedColor_eq_sum, List.length_take]
  have hstep : ∀ r ∈ Finset.range 6,
      (if 6 * c + r ∈ mask ∧ Board.get b (6 * c + r) = some p then (1 : Nat) else 0)
        = (if r ∈ Finset.range (6 ⊓ (b c).length)
            then (if 6 * c + (0 + r) ∈ mask ∧ ((b c).take 6)[r]? = some p then 1 else 0)
            else 0) := by
    intro r hr
    rw [Finset.mem_range] at hr
    rw [board_get_at b c r hc hr]
    have harith : 6 * c + (0 + r) = 6 * c + r := by omega
    by_cases hlen : r < (b c).length
    · have hmem : r ∈ Finset.range (6 ⊓ (b c).length) := by
        rw [Finset.mem_range]
        omega
      rw [if_pos hmem, harith, List.getElem?_take_of_lt hr]
    · have hmem : r ∉ Finset.range (6 ⊓ (b c).length) := by
        rw [Finset.mem_range]
        omega
      rw [if_neg hmem, List.getElem?_eq_none (by omega)]
      rw [if_neg (fun hc2 => by simpa using hc2.2)]
  rw [Finset.sum_congr rfl hstep]
  rw [← Finset.sum_subset (Finset.range_subset.mpr (min_le_left 6 (b c).length))
    (fun x _ hx => by rw [if_neg hx])]
  refine (Finset.sum_congr rfl ?_).symm
  intro r hr
  rw [if_pos hr]

theorem pieceCount_eq_sum (b : Board) (p : Nat) :
    Board.pieceCount b p = ∑ c ∈ Finset.range 8, colCount p ((b c).take 6) := by
  unfold Board.pieceCount Board.pieceMask
  rw [Finset.card_filter, sum_range48]
  refine Finset.sum_congr rfl ?_
  intro c hc
  rw [Finset.mem_range] at hc
  rw [count_eq_sum, List.length_take]
  have hstep : ∀ r ∈ Finset.range 6,
      (if Board.get b (6 * c + r) = some p then (1 : Nat) else 0)
        = (if r ∈ Finset.range (6 ⊓ (b c).length)
            then (if ((b c).take 6)[r]? = some p then 1 else 0) else 0) := by
    intro r hr
    rw [Finset.mem_range] at hr
    rw [board_get_at b c r hc hr]
    by_cases hlen : r < (b c).length
    · have hmem : r ∈ Finset.range (6 ⊓ (b c).length) := by
        rw [Finset.mem_range]
        omega
      rw [if_pos hmem, List.getElem?_take_of_lt hr]
    · have hmem : r ∉ Finset.range (6 ⊓ (b c).length) := by
        rw [Finset.mem_range]
        omega
      rw [if_neg hmem, List.getElem?_eq_none (by omega)]
      rw [if_neg (fun hc2 => by simp at hc2)]
  rw [Finset.sum_congr rfl hstep]
  rw [← Finset.sum_subset (Finset.range_subset.mpr (min_le_left 6 (b c).length))
    (fun x _ hx => by rw [if_neg hx])]
  refine Finset.sum_congr rfl ?_
  intro r hr
  rw [if_pos hr]

theorem getD_colCount_sum (p : Nat) :
    ∀ (l : List (List Nat)) (n : Nat), l.length ≤ n →
      ∑ c ∈ Finset.range n, colCount p (l.getD c []) = (l.map (colCount p)).sum := by
  intro l
  induction l with
  | nil =>
    intro n _
    have hz : ∀ c ∈ Finset.range n, colCount p (List.getD ([] : List (List Nat)) c []) = 0 := by
      intro c _
      rfl
    rw [Finset.sum_congr rfl hz]
    simp
  | cons x t ih =>
    intro n hn
    rw [List.length_cons] at hn
    cases n with
    | zero => omega
    | succ m =>
      rw [Finset.sum_range_succ']
      have hs : ∀ c ∈ Finset.range m,
          colCount p ((x :: t).getD (c + 1) []) = colCount p (t.getD c []) := by
        intro c _
        rfl
      rw [Finset.sum_congr rfl hs, ih m (by omega)]
      show (t.map (colCount p)).sum + colCount p x = ((x :: t).map (colCount p)).sum
      rw [List.map_cons, List.sum_cons]
      omega

theorem filter_nonempty_colCount_sum (p : Nat) :
    ∀ l : List (List Nat),
      ((l.filter (fun x => !x.isEmpty)).map (colCount p)).sum = (l.map (colCount p)).sum := by
  intro l
  induction l with
  | nil => rfl
  | cons x t ih =>
    rw [List.filter_cons]
    by_cases h : x.isEmpty
    · have hcc : colCount p x = 0 := by
        rw [List.isEmpty_iff] at h
        rw [h]
        rfl
      simp [h, hcc, ih]
    · have hb : x.isEmpty = false := by
        cases hx : x.isEmpty
        · rfl
        · exact absurd hx h
      simp [hb, ih]

/-- Erasing a mask removes exactly the mask squares holding value `p` from
the count of `p` (the per-color analogue of `totalCount_erase`). -/
theorem pieceCount_erase (b : Board) (mask : Finset Nat) (p : Nat) :
    Board.pieceCount (Board.erase b mask) p + (mask ∩ Board.pieceMask b p).card
      = Board.pieceCount b p := by
  have step1 : Board.pieceCount (Board.erase b mask) p
      = ∑ c ∈ Finset.range 8, colCount p ((Board.survivorCols b mask).getD c []) := by
    rw [pieceCount_eq_sum]
    refine Finset.sum_congr rfl ?_
    intro c _
    have hle := erase_col_length_le b mask c
    unfold Board.erase at hle ⊢
    rw [List.take_of_length_le hle]
  have step2 := getD_colCount_sum p (Board.survivorCols b mask) 8
    (survivorCols_length_le b mask)
  have step3 : ((Board.survivorCols b mask).map (colCount p)).sum
      = ((Board.packedCols b mask).map (colCount p)).sum := by
    unfold Board.survivorCols
    exact filter_nonempty_colCount_sum p _
  have step4 : ((Board.packedCols b mask).map (colCount p)).sum
      = ∑ c ∈ Finset.range 8, colCount p (eraseColumnAux mask c 0 ((b c).take 6)) := by
    unfold Board.packedCols
    rw [List.map_map]
    exact list_map_range_sum _ 8
  have step5 : ∑ c ∈ Finset.range 8, colCount p (eraseColumnAux mask c 0 ((b c).take 6))
        + ∑ c ∈ Finset.range 8, removedColor p mask c 0 ((b c).take 6)
      = ∑ c ∈ Finset.range 8, colCount p ((b c).take 6) := by
    rw [← Finset.sum_add_distrib]
    refine Finset.sum_congr rfl ?_
    intro c _
    exact eraseColumnAux_color p mask c ((b c).take 6) 0
  have step6 := removed_color_total b mask p
  rw [step1, step2, step3, step4, pieceCount_eq_sum b p]
  omega

theorem pieceMask_inter_eq_empty (b : Board) {p q : Nat} (hne : p ≠ q) (mask : Finset Nat)
    (hsub : mask ⊆ Board.pieceMask b p) : mask ∩ Board.pieceMask b q = ∅ := by
  refine Finset.eq_empty_of_forall_not_mem ?_
  intro sq hsq
  rw [Finset.mem_inter] at hsq
  have h1 := (mem_pieceMask b p sq).mp (hsub hsq.1)
  have h2 := (mem_pieceMask b q sq).mp hsq.2
  rw [h1.2] at h2
  exact hne (by simpa using h2.2)

/-- Spec section 4.3 step 3 at board level: an action decrements exactly
the captured color's count by its mask popcount. -/
theorem pieceCount_erase_action (b : Board) {a : Nat × Finset Nat}
    (ha : a ∈ Board.actions b) (q : Nat) :
    Board.pieceCount (Board.erase b a.2) q
      = Board.pieceCount b q - (if q = a.1 then a.2.card else 0) := by
  obtain ⟨hsub, hcard⟩ := actions_mem_spec b a ha
  have hpc := pieceCount_erase b a.2 q
  by_cases hq : q = a.1
  · rw [if_pos hq]
    subst hq
    rw [Finset.inter_eq_left.mpr hsub] at hpc
    omega
  · rw [if_neg hq]
    rw [pieceMask_inter_eq_empty b (fun hpq => hq hpq.symm) a.2 hsub] at hpc
    simp only [Finset.card_empty] at hpc
    omega

/-- The key arithmetic fact behind the sweep solver's upper bound: a
legal action never increases `gain so far + leaf estimate`. -/
theorem leafEst_action (b : Board) (hwf : Board.valuesWF b = true)
    {a : Nat × Finset Nat} (ha : a ∈ Board.actions b) :
    scoreErase a.2.card + leafEst (Board.erase b a.2) ≤ leafEst b := by
  obtain ⟨hsub, hk⟩ := actions_mem_spec b a ha
  obtain ⟨hp1, hp5⟩ := action_piece_range b hwf ha
  have hkcnt : a.2.card ≤ Board.pieceCount b a.1 := by
    have := Finset.card_le_card hsub
    unfold Board.pieceCount
    exact this
  have hcnt2 : 2 ≤ Board.pieceCount b a.1 := le_trans hk hkcnt
  have hpc := pieceCount_erase_action b ha
  have hj : a.1 - 1 ∈ Finset.range 5 := by
    rw [Finset.mem_range]
    omega
  have hjp : a.1 - 1 + 1 = a.1 := by omega
  have hpcj : Board.pieceCount (Board.erase b a.2) a.1
      = Board.pieceCount b a.1 - a.2.card := by
    rw [hpc a.1, if_pos rfl]
  have hsame : ∀ i ∈ (Finset.range 5).erase (a.1 - 1),
      Board.pieceCount (Board.erase b a.2) (i + 1) = Board.pieceCount b (i + 1) := by
    intro i hi
    rw [Finset.mem_erase] at hi
    rw [hpc (i + 1), if_neg (fun hip => hi.1 (by omega))]
    omega
  have hSb : (∑ i ∈ Finset.range 5,
        if 2 ≤ Board.pieceCount b (i + 1) then scoreErase (Board.pieceCount b (i + 1)) else 0)
      = scoreErase (Board.pieceCount b a.1) + ∑ i ∈ (Finset.range 5).erase (a.1 - 1),
          (if 2 ≤ Board.pieceCount b (i + 1)
            then scoreErase (Board.pieceCount b (i + 1)) else 0) := by
    rw [← Finset.add_sum_erase _ _ hj]
    congr 1
    rw [hjp, if_pos hcnt2]
  have hSe : (∑ i ∈ Finset.range 5,
        if 2 ≤ Board.pieceCount (Board.erase b a.2) (i + 1)
          then scoreErase (Board.pieceCount (Board.erase b a.2) (i + 1)) else 0)
      = (if 2 ≤ Board.pieceCount b a.1 - a.2.card
          then scoreErase (Board.pieceCount b a.1 - a.2.card) else 0)
        + ∑ i ∈ (Finset.range 5).erase (a.1 - 1),
          (if 2 ≤ Board.pieceCount b (i + 1)
            then scoreErase (Board.pieceCount b (i + 1)) else 0) := by
    rw [← Finset.add_sum_erase _ _ hj]
    congr 1
    · rw [hjp, hpcj]
    · refine Finset.sum_congr rfl ?_
      intro i hi
      rw [hsame i hi]
  have hPb_iff : (∀ i ∈ Finset.range 5, Board.pieceCount b (i + 1) ≠ 1)
      ↔ (∀ i ∈ (Finset.range 5).erase (a.1 - 1), Board.pieceCount b (i + 1) ≠ 1) := by
    constructor
    · intro h i hi
      exact h i (Finset.mem_of_mem_erase hi)
    · intro h i hi
      by_cases hij : i = a.1 - 1
      · subst hij
        rw [hjp]
        omega
      · exact h i (Finset.mem_erase.mpr ⟨hij, hi⟩)
  have hPe_iff : (∀ i ∈ Finset.range 5, Board.pieceCount (Board.erase b a.2) (i + 1) ≠ 1)
      ↔ ((Board.pieceCount b a.1 - a.2.card ≠ 1)
        ∧ ∀ i ∈ (Finset.range 5).erase (a.1 - 1), Board.pieceCount b (i + 1) ≠ 1) := by
    constructor
    · intro h
      constructor
      · have := h (a.1 - 1) hj
        rw [hjp, hpcj] at this
        exact this
      · intro i hi
        have := h i (Finset.mem_of_mem_erase hi)
        rw [hsame i hi] at this
        exact this
    · rintro ⟨h1, h2⟩ i hi
      by_cases hij : i = a.1 - 1
      · subst hij
        rw [hjp, hpcj]
        exact h1
      · have hie : i ∈ (Finset.range 5).erase (a.1 - 1) := Finset.mem_erase.mpr ⟨hij, hi⟩
        rw [hsame i hie]
        exact h2 i hie
  unfold leafEst
  rw [hSb, hSe]
  simp only [hPb_iff, hPe_iff]
  by_cases hm2 : 2 ≤ Board.pieceCount b a.1 - a.2.card
  · rw [if_pos hm2]
    have hckm : Board.pieceCount b a.1 = a.2.card + (Board.pieceCount b a.1 - a.2.card) := by
      omega
    have hsup : scoreErase a.2.card + scoreErase (Board.pieceCount b a.1 - a.2.card)
        ≤ scoreErase (Board.pieceCount b a.1) := by
      have := scoreErase_superadd hk hm2
      rwa [← hckm] at this
    have hcond : (if ((Board.pieceCount b a.1 - a.2.card ≠ 1)
          ∧ ∀ i ∈ (Finset.range 5).erase (a.1 - 1), Board.pieceCount b (i + 1) ≠ 1)
          then scorePerfect else 0)
        = (if (∀ i ∈ (Finset.range 5).erase (a.1 - 1), Board.pieceCount b (i + 1) ≠ 1)
          then scorePerfect else 0) := by
      by_cases hQ : ∀ i ∈ (Finset.range 5).erase (a.1 - 1), Board.pieceCount b (i + 1) ≠ 1
      · rw [if_pos ⟨by omega, hQ⟩, if_pos hQ]
      · rw [if_neg (fun hc => hQ hc.2), if_neg hQ]
    rw [hcond]
    omega
  · rw [if_neg hm2]
    by_cases hm1 : Board.pieceCount b a.1 - a.2.card = 1
    · rw [if_neg (fun hc => hc.1 hm1)]
      have hmono : scoreErase a.2.card ≤ scoreErase (Board.pieceCount b a.1) :=
        scoreErase_mono hkcnt
      omega
    · have hcond : (if ((Board.pieceCount b a.1 - a.2.card ≠ 1)
            ∧ ∀ i ∈ (Finset.range 5).erase (a.1 - 1), Board.pieceCount b (i + 1) ≠ 1)
            then scorePerfect else 0)
          = (if (∀ i ∈ (Finset.range 5).erase (a.1 - 1), Board.pieceCount b (i + 1) ≠ 1)
            then scorePerfect else 0) := by
        by_cases hQ : ∀ i ∈ (Finset.range 5).erase (a.1 - 1), Board.pieceCount b (i + 1) ≠ 1
        · rw [if_pos ⟨hm1, hQ⟩, if_pos hQ]
        · rw [if_neg (fun hc => hQ hc.2), if_neg hQ]
      rw [hcond]
      have hmono : scoreErase a.2.card ≤ scoreErase (Board.pieceCount b a.1) :=
        scoreErase_mono hkcnt
      omega

theorem foldr_max_le {B : Nat} : ∀ {l : List Nat}, (∀ x ∈ l, x ≤ B) →
    l.foldr Nat.max 0 ≤ B := by
  intro l
  induction l with
  | nil => intro _; exact Nat.zero_le B
  | cons x t ih =>
    intro h
    rw [List.foldr_cons]
    exact Nat.max_le.mpr ⟨h x (by simp), ih (fun y hy => h y (List.mem_cons_of_mem x hy))⟩

theorem le_foldr_max : ∀ (l : List Nat) (x : Nat), x ∈ l → x ≤ l.foldr Nat.max 0 := by
  intro l
  induction l with
  | nil =>
    intro x hx
    exact absurd hx (by simp)
  | cons y t ih =>
    intro x hx
    rw [List.foldr_cons]
    rcases List.mem_cons.mp hx with h1 | h2
    · rw [h1]
      exact Nat.le_max_left _ _
    · exact le_trans (ih x h2) (Nat.le_max_right _ _)

theorem maxGain_le_of_actions (b : Board) (hne : Board.isEmpty b = false) {B : Nat}
    (h : ∀ a ∈ Board.actions b, scoreErase a.2.card + maxGain (Board.erase b a.2) ≤ B) :
    maxGain b ≤ B := by
  rw [maxGain_eq_map, hne]
  simp only [Bool.false_eq_true, if_false]
  refine foldr_max_le ?_
  intro x hx
  rw [List.mem_map] at hx
  obtain ⟨a, ha, hxa⟩ := hx
  rw [← hxa]
  exact h a ha

/-- The leaf estimate really is an upper bound on the exact remaining
gain (spec section 4.6). -/
theorem maxGain_le_leafEst : ∀ n (b : Board), Board.totalCount b ≤ n →
    Board.valuesWF b = true → maxGain b ≤ leafEst b := by
  intro n
  induction n using Nat.strong_induction_on with
  | _ n ih =>
    intro b hn hwf
    by_cases he : Board.isEmpty b
    · rw [maxGain_eq_map, if_pos he, leafEst_empty b he]
    · have hne : Board.isEmpty b = false := by
        cases hx : Board.isEmpty b
        · rfl
        · exact absurd hx he
      refine maxGain_le_of_actions b hne ?_
      intro a ha
      have hdec := totalCount_erase_action b a ha
      have hnpos : 0 < n := by omega
      have hchild : maxGain (Board.erase b a.2) ≤ leafEst (Board.erase b a.2) :=
        ih (n - 1) (by omega) (Board.erase b a.2) (by omega) (valuesWF_erase b a.2 hwf)
      have := leafEst_action b hwf ha
      omega

/-! ### The sweep (pruning) solver of src/src/solver2.rs (claim C3) -/

/-- The board-keyed view of solver2's DP table (the no-collision
idealization of the Zobrist-keyed array; spec section 4.5 excludes hash
collisions from the correctness guarantee, and the bit-exact slot walk of
the identical table layout is verified separately for claim C4). -/
def Tbl : Type := List (List Nat) → Option Nat

def tblSet (t : Tbl) (k : List (List Nat)) (v : Nat) : Tbl :=
  fun x => if x = k then some v else t x

def tblEmpty : Tbl := fun _ => none

/-- `SubSolver` (src/src/solver2.rs lines 46-52): current best score, the
solution achieving it, the action history of the current path, and the DP
table. -/
structure Sub2State where
  bestScore : Nat
  bestSolution : Option (List Nat)
  history : List Nat
  table : Tbl

/-- The `try_improve!` macro of `SubSolver::dfs` (src/src/solver2.rs
lines 74-80): `chmax` on the best score, cloning the history into the
best solution on improvement. -/
def tryImprove (s : Sub2State) (sc : Nat) : Sub2State :=
  if s.bestScore < sc then { s with bestScore := sc, bestSolution := some s.history }
  else s

mutual

/-- `SubSolver::dfs` (src/src/solver2.rs lines 73-138): perfect-clear
check first; probe; on a miss the leaf estimate `pos.score_upper_bound()`
and the `finished` shortcut, else entry creation at the estimate; the
pruning test `score + gain_ub <= best_score` returning the bound without
expansion; otherwise the child loop followed by `set_gain_ub`. -/
def Sub2.dfs (Z : Nat → Nat → Nat) (s : Sub2State) (pos : Position) (score : Nat) :
    Nat × Sub2State :=
  if Board.isEmpty pos.board then (scorePerfect, tryImprove s (score + scorePerfect))
  else
    match s.table (boardRep pos.board) with
    | some gainUb =>
      if score + gainUb ≤ s.bestScore then (gainUb, s)
      else
        let r := Sub2.dfsActs Z s pos score (Board.actions pos.board).attach
        (r.1, { r.2 with table := tblSet r.2.table (boardRep pos.board) r.1 })
    | none =>
      let gainUb := leafEst pos.board
      if gainUb = 0 ∨ Board.actions pos.board = [] then (0, tryImprove s score)
      else
        let s1 := { s with table := tblSet s.table (boardRep pos.board) gainUb }
        if score + gainUb ≤ s.bestScore then (gainUb, s1)
        else
          let r := Sub2.dfsActs Z s1 pos score (Board.actions pos.board).attach
          (r.1, { r.2 with table := tblSet r.2.table (boardRep pos.board) r.1 })
termination_by (Board.totalCount pos.board, 1, 0)
decreasing_by
  all_goals
    simp_wf
    apply Prod.Lex.right
    apply Prod.Lex.left
    omega

/-- The `for action in pos.actions()` loop of `SubSolver::dfs`
(src/src/solver2.rs lines 123-133): history push, child search at
`score + gain_action`, `chmax` into `gain_ub_new`, history pop. -/
def Sub2.dfsActs (Z : Nat → Nat → Nat) (s : Sub2State) (pos : Position) (score : Nat)
    (acts : List {a : Nat × Finset Nat // a ∈ Board.actions pos.board}) :
    Nat × Sub2State :=
  match acts with
  | [] => (0, s)
  | a :: rest =>
    let s1 := { s with history := s.history ++ [leastSquare a.1.2] }
    let rc := Sub2.dfs Z s1 (Position.doAction Z pos a.1) (score + scoreErase a.1.2.card)
    let s2 := { rc.2 with history := rc.2.history.dropLast }
    let rr := Sub2.dfsActs Z s2 pos score rest
    (Nat.max (scoreErase a.1.2.card + rc.1) rr.1, rr.2)
termination_by (Board.totalCount pos.board, 0, acts.length)
decreasing_by
  · simp_wf
    have := totalCount_erase_action pos.board a.1 a.2
    have heq : (Position.doAction Z pos a.1).board = Board.erase pos.board a.1.2 := rfl
    rw [heq]
    left
    omega
  · simp_wf
    apply Prod.Lex.right
    apply Prod.Lex.right
    omega

end

/-- The remaining-gain bound the sweep recursion may assume for a child
position: the stored entry if present, else what a fresh call returns or
creates at once (the perfect bonus, the terminal 0, or the leaf
estimate). -/
def childBound (t : Tbl) (c : Board) : Nat :=
  match t (boardRep c) with
  | some u => u
  | none =>
    if Board.isEmpty c then scorePerfect
    else if Board.actions c = [] then 0 else leafEst c

/-- The table invariant of the sweep solver (claim C3, first half): every
entry is keyed by a well-formed, non-empty, non-terminal position; its
value is nonzero, at least the exact remaining gain (the upper-bound
property), at most the leaf estimate, and dominates
`gain(action) + childBound(child)` for every legal action. -/
def TblInv (t : Tbl) : Prop :=
  ∀ rep v, t rep = some v →
    maxGain (repBoard rep) ≤ v ∧ v ≤ leafEst (repBoard rep) ∧ 1 ≤ v ∧
    Board.isEmpty (repBoard rep) = false ∧ Board.actions (repBoard rep) ≠ [] ∧
    Board.valuesWF (repBoard rep) = true ∧
    ∀ a ∈ Board.actions (repBoard rep),
      scoreErase a.2.card + childBound t (Board.erase (repBoard rep) a.2) ≤ v

/-- Pointwise tightening (claim C3, second half): every entry of `t`
survives into `t2` with a value that did not increase. -/
def TblStep (t t2 : Tbl) : Prop :=
  ∀ rep v, t rep = some v → ∃ v2, t2 rep = some v2 ∧ v2 ≤ v

theorem tblStep_refl (t : Tbl) : TblStep t t :=
  fun _ v h => ⟨v, h, le_refl v⟩

theorem tblStep_trans {t t2 t3 : Tbl} (h1 : TblStep t t2) (h2 : TblStep t2 t3) :
    TblStep t t3 := by
  intro rep v h
  obtain ⟨v2, hv2, hle2⟩ := h1 rep v h
  obtain ⟨v3, hv3, hle3⟩ := h2 rep v2 hv2
  exact ⟨v3, hv3, le_trans hle3 hle2⟩

theorem tblSet_self (t : Tbl) (k : List (List Nat)) (v : Nat) :
    tblSet t k v k = some v := by
  simp [tblSet]

theorem tblSet_other (t : Tbl) (k : List (List Nat)) (v : Nat)
    {rep : List (List Nat)} (hrep : rep ≠ k) : tblSet t k v rep = t rep := by
  simp only [tblSet]
  rw [if_neg hrep]

theorem tblStep_set {t : Tbl} (k : List (List Nat)) (v : Nat)
    (hself : ∀ u, t k = some u → v ≤ u) : TblStep t (tblSet t k v) := by
  intro rep u h
  by_cases hrep : rep = k
  · subst hrep
    exact ⟨v, tblSet_self t rep v, hself u h⟩
  · exact ⟨u, by rw [tblSet_other t k v hrep]; exact h, le_refl u⟩

theorem tblEmpty_inv : TblInv tblEmpty := by
  intro rep v h
  exact absurd h (by simp [tblEmpty])

/-- No entry is ever keyed by an empty position. -/
theorem tblInv_no_empty {t : Tbl} (ht : TblInv t) (b : Board)
    (he : Board.isEmpty b = true) : t (boardRep b) = none := by
  rcases h : t (boardRep b) with _ | v
  · rfl
  · have hfield := (ht _ _ h).2.2.2.1
    rw [← isEmpty_windowEq (windowEq_repBoard b)] at hfield
    rw [he] at hfield
    exact absurd hfield (by simp)

/-- No entry is ever keyed by a terminal position. -/
theorem tblInv_no_terminal {t : Tbl} (ht : TblInv t) (b : Board)
    (hnil : Board.actions b = []) : t (boardRep b) = none := by
  rcases h : t (boardRep b) with _ | v
  · rfl
  · have hfield := (ht _ _ h).2.2.2.2.1
    rw [← actions_windowEq (windowEq_repBoard b)] at hfield
    exact absurd hnil hfield

/-- The child bound never increases when the table tightens. -/
theorem childBound_mono {t t2 : Tbl} (h2 : TblInv t2) (hstep : TblStep t t2)
    (c : Board) : childBound t2 c ≤ childBound t c := by
  rcases h : t (boardRep c) with _ | v
  · have hcb : childBound t c = (if Board.isEmpty c then scorePerfect
        else if Board.actions c = [] then 0 else leafEst c) := by
      unfold childBound
      rw [h]
    rcases h2l : t2 (boardRep c) with _ | v2
    · have hcb2 : childBound t2 c = (if Board.isEmpty c then scorePerfect
          else if Board.actions c = [] then 0 else leafEst c) := by
        unfold childBound
        rw [h2l]
      rw [hcb2, hcb]
    · have hcb2 : childBound t2 c = v2 := by
        unfold childBound
        rw [h2l]
      rw [hcb2, hcb]
      have hfields := h2 _ _ h2l
      have hwin := windowEq_repBoard c
      by_cases he : Board.isEmpty c
      · rw [isEmpty_windowEq hwin, hfields.2.2.2.1] at he
        exact absurd he (by simp)
      · rw [if_neg he]
        by_cases hterm : Board.actions c = []
        · rw [actions_windowEq hwin] at hterm
          exact absurd hterm hfields.2.2.2.2.1
        · rw [if_neg hterm]
          have := hfields.2.1
          rw [← leafEst_windowEq hwin] at this
          exact this
  · obtain ⟨v2, hv2, hle⟩ := hstep _ _ h
    have hcb : childBound t c = v := by
      unfold childBound
      rw [h]
    have hcb2 : childBound t2 c = v2 := by
      unfold childBound
      rw [hv2]
    rw [hcb, hcb2]
    exact hle

/-- Every child bound is at most the fresh-call value of the child. -/
theorem childBound_le_fresh {t : Tbl} (ht : TblInv t) (c : Board) :
    childBound t c ≤ (if Board.isEmpty c then scorePerfect
      else if Board.actions c = [] then 0 else leafEst c) := by
  rcases h : t (boardRep c) with _ | v
  · have hcb : childBound t c = (if Board.isEmpty c then scorePerfect
        else if Board.actions c = [] then 0 else leafEst c) := by
      unfold childBound
      rw [h]
    exact le_of_eq hcb
  · have hcb : childBound t c = v := by
      unfold childBound
      rw [h]
    rw [hcb]
    have hfields := ht _ _ h
    have hwin := windowEq_repBoard c
    by_cases he : Board.isEmpty c
    · rw [isEmpty_windowEq hwin, hfields.2.2.2.1] at he
      exact absurd he (by simp)
    · rw [if_neg he]
      by_cases hterm : Board.actions c = []
      · rw [actions_windowEq hwin] at hterm
        exact absurd hterm hfields.2.2.2.2.1
      · rw [if_neg hterm]
        have := hfields.2.1
        rw [← leafEst_windowEq hwin] at this
        exact this

/-- `gain(action) + childBound(child)` never exceeds the parent leaf
estimate. -/
theorem childBound_action_le {t : Tbl} (ht : TblInv t) (b : Board)
    (hwf : Board.valuesWF b = true) {a : Nat × Finset Nat} (ha : a ∈ Board.actions b) :
    scoreErase a.2.card + childBound t (Board.erase b a.2) ≤ leafEst b := by
  have hcb := childBound_le_fresh ht (Board.erase b a.2)
  have hla := leafEst_action b hwf ha
  by_cases he : Board.isEmpty (Board.erase b a.2)
  · rw [if_pos he, ← leafEst_empty _ he] at hcb
    omega
  · rw [if_neg he] at hcb
    by_cases hterm : Board.actions (Board.erase b a.2) = []
    · rw [if_pos hterm] at hcb
      omega
    · rw [if_neg hterm] at hcb
      omega

theorem tryImprove_table (s : Sub2State) (sc : Nat) : (tryImprove s sc).table = s.table := by
  unfold tryImprove
  by_cases h : s.bestScore < sc
  · rw [if_pos h]
  · rw [if_neg h]

/-- Writing a sound value at a position's key only lowers child bounds. -/
theorem childBound_set_le {t : Tbl} (b : Board) (v : Nat)
    (hne : Board.isEmpty b = false) (hnil : Board.actions b ≠ [])
    (hle : v ≤ leafEst b)
    (hself : ∀ u, t (boardRep b) = some u → v ≤ u) (c : Board) :
    childBound (tblSet t (boardRep b) v) c ≤ childBound t c := by
  by_cases hrep : boardRep c = boardRep b
  · have hwin : WindowEq c b := windowEq_of_rep_eq hrep
    have hcb2 : childBound (tblSet t (boardRep b) v) c = v := by
      unfold childBound
      rw [hrep, tblSet_self]
    rw [hcb2]
    rcases h : t (boardRep c) with _ | u
    · have hcb : childBound t c = (if Board.isEmpty c then scorePerfect
          else if Board.actions c = [] then 0 else leafEst c) := by
        unfold childBound
        rw [h]
      rw [hcb]
      have hnec : Board.isEmpty c = false := by rw [isEmpty_windowEq hwin, hne]
      have hnilc : Board.actions c ≠ [] := by
        rw [actions_windowEq hwin]
        exact hnil
      rw [if_neg (by rw [hnec]; simp), if_neg hnilc, leafEst_windowEq hwin]
      exact hle
    · have hcb : childBound t c = u := by
        unfold childBound
        rw [h]
      rw [hcb]
      refine hself u ?_
      rw [← hrep]
      exact h
  · have heq2 : childBound (tblSet t (boardRep b) v) c = childBound t c := by
      unfold childBound
      rw [tblSet_other t _ v hrep]
    exact le_of_eq heq2

/-- Creating or finalizing an entry with a sound value preserves the
table invariant. -/
theorem tblInv_set (t : Tbl) (b : Board) (v : Nat) (ht : TblInv t)
    (hne : Board.isEmpty b = false) (hnil : Board.actions b ≠ [])
    (hwf : Board.valuesWF b = true)
    (hmax : maxGain b ≤ v) (hle : v ≤ leafEst b) (h1 : 1 ≤ v)
    (hI5 : ∀ a ∈ Board.actions b,
      scoreErase a.2.card + childBound t (Board.erase b a.2) ≤ v)
    (hself : ∀ u, t (boardRep b) = some u → v ≤ u) :
    TblInv (tblSet t (boardRep b) v) := by
  have hmono := childBound_set_le b v hne hnil hle hself
  intro rep u hu
  by_cases hrep : rep = boardRep b
  · subst hrep
    rw [tblSet_self] at hu
    have huv : v = u := by injection hu
    subst huv
    have hwin : WindowEq b (repBoard (boardRep b)) := windowEq_repBoard b
    refine ⟨?_, ?_, h1, ?_, ?_, ?_, ?_⟩
    · rw [← maxGain_windowEq hwin]
      exact hmax
    · rw [← leafEst_windowEq hwin]
      exact hle
    · rw [← isEmpty_windowEq hwin]
      exact hne
    · rw [← actions_windowEq hwin]
      exact hnil
    · rw [← valuesWF_windowEq hwin]
      exact hwf
    · intro a ha
      rw [← actions_windowEq hwin] at ha
      rw [← erase_windowEq hwin a.2]
      have hm := hmono (Board.erase b a.2)
      have hi := hI5 a ha
      omega
  · rw [tblSet_other t _ v hrep] at hu
    obtain ⟨f1, f2, f3, f4, f5, f6, f7⟩ := ht rep u hu
    refine ⟨f1, f2, f3, f4, f5, f6, ?_⟩
    intro a ha
    have hm := hmono (Board.erase (repBoard rep) a.2)
    have hi := f7 a ha
    omega

theorem one_le_of_actionBound {b : Board} {t : Tbl} {R : Nat}
    (hnil : Board.actions b ≠ [])
    (hA : ∀ x ∈ Board.actions b,
      scoreErase x.2.card + childBound t (Board.erase b x.2) ≤ R) :
    1 ≤ R := by
  rcases hact : Board.actions b with _ | ⟨a0, rest0⟩
  · exact absurd hact hnil
  · have ha0 : a0 ∈ Board.actions b := by
      rw [hact]
      exact List.mem_cons_self _ _
    have hcard := (actions_mem_spec b a0 ha0).2
    have hge := scoreErase_pos hcard
    have := hA a0 ha0
    omega

/-- The full postcondition of one `SubSolver::dfs` call: correctness of
the returned bound, the no-increase property against the entry's previous
value, preservation of the table invariant, pointwise tightening, the
base-case return values, and the frame on larger positions. -/
def Sub2DfsOK (pos : Position) (s : Sub2State) (r : Nat × Sub2State) : Prop :=
  maxGain pos.board ≤ r.1 ∧
  r.1 ≤ leafEst pos.board ∧
  (∀ v, s.table (boardRep pos.board) = some v → r.1 ≤ v) ∧
  TblInv r.2.table ∧
  TblStep s.table r.2.table ∧
  (∀ v, r.2.table (boardRep pos.board) = some v → v ≤ r.1) ∧
  (Board.isEmpty pos.board = true → r.1 = scorePerfect) ∧
  (Board.isEmpty pos.board = false → Board.actions pos.board = [] → r.1 = 0) ∧
  (Board.isEmpty pos.board = false → Board.actions pos.board ≠ [] →
    (r.2.table (boardRep pos.board)).isSome = true) ∧
  (∀ rep, rep ≠ boardRep pos.board →
    Board.totalCount pos.board ≤ Board.totalCount (repBoard rep) →
    r.2.table rep = s.table rep)

/-- The postcondition of the child loop: invariant and tightening, the
loop maximum dominating `gain + child data` both for the exact gains and
for the final child bounds, the loop maximum being dominated by any bound
consistent with the starting table, and the frame on positions at least
as large as the parent. -/
def Sub2ActsOK (pos : Position) (s : Sub2State)
    (acts : List {a : Nat × Finset Nat // a ∈ Board.actions pos.board})
    (r : Nat × Sub2State) : Prop :=
  TblInv r.2.table ∧
  TblStep s.table r.2.table ∧
  (∀ a ∈ acts, scoreErase a.1.2.card + maxGain (Board.erase pos.board a.1.2) ≤ r.1) ∧
  (∀ a ∈ acts, scoreErase a.1.2.card
    + childBound r.2.table (Board.erase pos.board a.1.2) ≤ r.1) ∧
  (∀ B : Nat, (∀ a ∈ acts, scoreErase a.1.2.card
    + childBound s.table (Board.erase pos.board a.1.2) ≤ B) → r.1 ≤ B) ∧
  (∀ rep, Board.totalCount pos.board < Board.totalCount (repBoard rep) + 2 →
    r.2.table rep = s.table rep)

/-- The joint induction on the total piece count establishing the
postconditions of `SubSolver::dfs` and of its child loop. -/
theorem sub2_aux (Z : Nat → Nat → Nat) : ∀ n : Nat,
    (∀ (pos : Position) (s : Sub2State) (score : Nat),
      Board.totalCount pos.board ≤ n → Board.valuesWF pos.board = true →
      TblInv s.table → Sub2DfsOK pos s (Sub2.dfs Z s pos score)) ∧
    (∀ (pos : Position) (score : Nat)
      (acts : List {a : Nat × Finset Nat // a ∈ Board.actions pos.board}),
      Board.totalCount pos.board ≤ n → Board.valuesWF pos.board = true →
      ∀ s : Sub2State, TblInv s.table →
      Sub2ActsOK pos s acts (Sub2.dfsActs Z s pos score acts)) := by
  intro n
  induction n using Nat.strong_induction_on with
  | _ n ih =>
    have hactsPart : ∀ (pos : Position) (score : Nat)
        (acts : List {a : Nat × Finset Nat // a ∈ Board.actions pos.board}),
        Board.totalCount pos.board ≤ n → Board.valuesWF pos.board = true →
        ∀ s : Sub2State, TblInv s.table →
        Sub2ActsOK pos s acts (Sub2.dfsActs Z s pos score acts) := by
      intro pos score acts htc hwf
      induction acts with
      | nil =>
        intro s hinv
        have heq : Sub2.dfsActs Z s pos score [] = (0, s) := by
          rw [Sub2.dfsActs]
        rw [heq]
        unfold Sub2ActsOK
        dsimp only
        refine ⟨hinv, tblStep_refl _, ?_, ?_, ?_, fun rep _ => rfl⟩
        · intro x hx
          exact absurd hx (List.not_mem_nil x)
        · intro x hx
          exact absurd hx (List.not_mem_nil x)
        · intro B _
          exact Nat.zero_le B
      | cons a rest ihacts =>
        intro s hinv
        set s1 : Sub2State := { s with history := s.history ++ [leastSquare a.1.2] }
          with hs1x
        have hinv1 : TblInv s1.table := hinv
        have hwfc : Board.valuesWF (Position.doAction Z pos a.1).board = true :=
          valuesWF_erase pos.board a.1.2 hwf
        have hdec := totalCount_erase_action pos.board a.1 a.2
        have hlt : Board.totalCount (Position.doAction Z pos a.1).board < n := by
          have hb2 : Board.totalCount (Position.doAction Z pos a.1).board
              = Board.totalCount (Board.erase pos.board a.1.2) := rfl
          omega
        set rc := Sub2.dfs Z s1 (Position.doAction Z pos a.1)
          (score + scoreErase a.1.2.card) with hrc
        have hchild := (ih _ hlt).1 (Position.doAction Z pos a.1) s1
          (score + scoreErase a.1.2.card) (le_refl _) hwfc hinv1
        rw [← hrc] at hchild
        unfold Sub2DfsOK at hchild
        obtain ⟨hc1, hc2, hc3, hc4, hc5, hc6, hc7, hc8, hc9, hc10⟩ := hchild
        have hc1b : maxGain (Board.erase pos.board a.1.2) ≤ rc.1 := hc1
        have hc2b : rc.1 ≤ leafEst (Board.erase pos.board a.1.2) := hc2
        have hc3b : ∀ v, s.table (boardRep (Board.erase pos.board a.1.2)) = some v →
            rc.1 ≤ v := hc3
        have hc6b : ∀ v, rc.2.table (boardRep (Board.erase pos.board a.1.2)) = some v →
            v ≤ rc.1 := hc6
        have hc7b : Board.isEmpty (Board.erase pos.board a.1.2) = true →
            rc.1 = scorePerfect := hc7
        have hc8b : Board.isEmpty (Board.erase pos.board a.1.2) = false →
            Board.actions (Board.erase pos.board a.1.2) = [] → rc.1 = 0 := hc8
        have hc9b : Board.isEmpty (Board.erase pos.board a.1.2) = false →
            Board.actions (Board.erase pos.board a.1.2) ≠ [] →
            (rc.2.table (boardRep (Board.erase pos.board a.1.2))).isSome = true := hc9
        have hc10b : ∀ rep, rep ≠ boardRep (Board.erase pos.board a.1.2) →
            Board.totalCount (Board.erase pos.board a.1.2) ≤ Board.totalCount (repBoard rep) →
            rc.2.table rep = s.table rep := hc10
        have hc4b : TblInv rc.2.table := hc4
        have hc5b : TblStep s.table rc.2.table := hc5
        set s2 : Sub2State := { rc.2 with history := rc.2.history.dropLast } with hs2x
        have hinv2 : TblInv s2.table := hc4b
        set rr := Sub2.dfsActs Z s2 pos score rest with hrr
        have hrest := ihacts s2 hinv2
        rw [← hrr] at hrest
        unfold Sub2ActsOK at hrest
        obtain ⟨hr1, hr2, hr3, hr4, hr5, hr6⟩ := hrest
        have hr2b : TblStep rc.2.table rr.2.table := hr2
        have hchildb : rc.1 ≤ childBound s.table (Board.erase pos.board a.1.2) := by
          rcases hl : s.table (boardRep (Board.erase pos.board a.1.2)) with _ | u
          · have hcb : childBound s.table (Board.erase pos.board a.1.2)
                = (if Board.isEmpty (Board.erase pos.board a.1.2) then scorePerfect
                  else if Board.actions (Board.erase pos.board a.1.2) = [] then 0
                  else leafEst (Board.erase pos.board a.1.2)) := by
              unfold childBound
              rw [hl]
            rw [hcb]
            by_cases he2 : Board.isEmpty (Board.erase pos.board a.1.2)
            · rw [if_pos he2]
              exact le_of_eq (hc7b he2)
            · have hne2 : Board.isEmpty (Board.erase pos.board a.1.2) = false := by
                cases hx : Board.isEmpty (Board.erase pos.board a.1.2)
                · rfl
                · exact absurd hx he2
              rw [if_neg he2]
              by_cases hterm2 : Board.actions (Board.erase pos.board a.1.2) = []
              · rw [if_pos hterm2]
                exact le_of_eq (hc8b hne2 hterm2)
              · rw [if_neg hterm2]
                exact hc2b
          · have hcb : childBound s.table (Board.erase pos.board a.1.2) = u := by
              unfold childBound
              rw [hl]
            rw [hcb]
            exact hc3b u hl
        have hafter : childBound rc.2.table (Board.erase pos.board a.1.2) ≤ rc.1 := by
          by_cases he2 : Board.isEmpty (Board.erase pos.board a.1.2)
          · have hnone := tblInv_no_empty hc4b _ he2
            have hcb : childBound rc.2.table (Board.erase pos.board a.1.2)
                = (if Board.isEmpty (Board.erase pos.board a.1.2) then scorePerfect
                  else if Board.actions (Board.erase pos.board a.1.2) = [] then 0
                  else leafEst (Board.erase pos.board a.1.2)) := by
              unfold childBound
              rw [hnone]
            rw [hcb, if_pos he2]
            exact le_of_eq (hc7b he2).symm
          · have hne2 : Board.isEmpty (Board.erase pos.board a.1.2) = false := by
              cases hx : Board.isEmpty (Board.erase pos.board a.1.2)
              · rfl
              · exact absurd hx he2
            by_cases hterm2 : Board.actions (Board.erase pos.board a.1.2) = []
            · have hnone := tblInv_no_terminal hc4b _ hterm2
              have hcb : childBound rc.2.table (Board.erase pos.board a.1.2)
                  = (if Board.isEmpty (Board.erase pos.board a.1.2) then scorePerfect
                    else if Board.actions (Board.erase pos.board a.1.2) = [] then 0
                    else leafEst (Board.erase pos.board a.1.2)) := by
                unfold childBound
                rw [hnone]
              rw [hcb, if_neg he2, if_pos hterm2]
              exact Nat.zero_le _
            · have hsome := hc9b hne2 hterm2
              rcases hx : rc.2.table (boardRep (Board.erase pos.board a.1.2)) with _ | u
              · rw [hx] at hsome
                exact absurd hsome (by simp)
              · have hcb : childBound rc.2.table (Board.erase pos.board a.1.2) = u := by
                  unfold childBound
                  rw [hx]
                rw [hcb]
                exact hc6b u hx
        have heq : Sub2.dfsActs Z s pos score (a :: rest)
            = (Nat.max (scoreErase a.1.2.card + rc.1) rr.1, rr.2) := by
          rw [Sub2.dfsActs]
        rw [heq]
        unfold Sub2ActsOK
        dsimp only
        refine ⟨hr1, ?_, ?_, ?_, ?_, ?_⟩
        · exact tblStep_trans hc5b hr2b
        · intro x hx
          rcases List.mem_cons.mp hx with h1 | h2
          · subst h1
            have hmax1 : scoreErase x.1.2.card + rc.1
                ≤ Nat.max (scoreErase x.1.2.card + rc.1) rr.1 := Nat.le_max_left _ _
            omega
          · exact le_trans (hr3 x h2) (Nat.le_max_right _ _)
        · intro x hx
          rcases List.mem_cons.mp hx with h1 | h2
          · subst h1
            have hmono2 : childBound rr.2.table (Board.erase pos.board x.1.2)
                ≤ childBound rc.2.table (Board.erase pos.board x.1.2) :=
              childBound_mono hr1 hr2b _
            have hmax1 : scoreErase x.1.2.card + rc.1
                ≤ Nat.max (scoreErase x.1.2.card + rc.1) rr.1 := Nat.le_max_left _ _
            omega
          · exact le_trans (hr4 x h2) (Nat.le_max_right _ _)
        · intro B hB
          refine Nat.max_le.mpr ⟨?_, ?_⟩
          · have hBhead := hB a (List.mem_cons_self a rest)
            omega
          · refine hr5 B ?_
            intro x hx2
            have hmono3 : childBound s2.table (Board.erase pos.board x.1.2)
                ≤ childBound s.table (Board.erase pos.board x.1.2) :=
              childBound_mono hc4b hc5b _
            have hBx := hB x (List.mem_cons_of_mem a hx2)
            omega
        · intro rep hcond
          have h1 : rc.2.table rep = s.table rep := by
            refine hc10b rep ?_ ?_
            · intro habs
              have htc3 : Board.totalCount (Board.erase pos.board a.1.2)
                  = Board.totalCount (repBoard rep) := by
                have hw := totalCount_windowEq
                  (windowEq_repBoard (Board.erase pos.board a.1.2))
                rw [habs]
                exact hw
              omega
            · omega
          have h2 := hr6 rep hcond
          rw [h2]
          exact h1
    refine ⟨?_, hactsPart⟩
    intro pos s score htc hwf hinv
    by_cases he : Board.isEmpty pos.board
    · have heq : Sub2.dfs Z s pos score
          = (scorePerfect, tryImprove s (score + scorePerfect)) := by
        rw [Sub2.dfs, if_pos he]
      have hnone := tblInv_no_empty hinv pos.board he
      rw [heq]
      unfold Sub2DfsOK
      dsimp only
      rw [tryImprove_table]
      refine ⟨?_, ?_, ?_, hinv, tblStep_refl _, ?_, fun _ => rfl, ?_, ?_,
        fun rep _ _ => rfl⟩
      · exact le_of_eq (by rw [maxGain_eq_map, if_pos he])
      · exact le_of_eq (leafEst_empty pos.board he).symm
      · intro v hv
        rw [hnone] at hv
        exact absurd hv (by simp)
      · intro v hv
        rw [hnone] at hv
        exact absurd hv (by simp)
      · intro hf _
        rw [he] at hf
        exact absurd hf (by simp)
      · intro hf _
        rw [he] at hf
        exact absurd hf (by simp)
    · have hne : Board.isEmpty pos.board = false := by
        cases hx : Board.isEmpty pos.board
        · rfl
        · exact absurd hx he
      rcases hlook : s.table (boardRep pos.board) with _ | gainUb
      · by_cases hfin : leafEst pos.board = 0 ∨ Board.actions pos.board = []
        · have hterm : Board.actions pos.board = [] := by
            rcases hfin with h0 | hnil2
            · exact actions_nil_of_leafEst_zero pos.board hwf h0
            · exact hnil2
          have heq : Sub2.dfs Z s pos score = (0, tryImprove s score) := by
            rw [Sub2.dfs, if_neg (by rw [hne]; simp), hlook]
            dsimp only
            rw [if_pos hfin]
          rw [heq]
          unfold Sub2DfsOK
          dsimp only
          rw [tryImprove_table]
          refine ⟨?_, Nat.zero_le _, ?_, hinv, tblStep_refl _, ?_, ?_, fun _ _ => rfl,
            ?_, fun rep _ _ => rfl⟩
          · exact le_of_eq (maxGain_terminal pos.board hne hterm)
          · intro v hv
            rw [hlook] at hv
            exact absurd hv (by simp)
          · intro v hv
            rw [hlook] at hv
            exact absurd hv (by simp)
          · intro hf
            rw [hf] at hne
            exact absurd hne (by simp)
          · intro _ hnil2
            exact absurd hterm hnil2
        · have hsplit : leafEst pos.board ≠ 0 ∧ Board.actions pos.board ≠ [] := by
            constructor
            · intro h0
              exact hfin (Or.inl h0)
            · intro hnil0
              exact hfin (Or.inr hnil0)
          obtain ⟨hub0, hnil⟩ := hsplit
          set s1 : Sub2State :=
            { s with table := tblSet s.table (boardRep pos.board) (leafEst pos.board) }
            with hs1def
          have hinv1 : TblInv s1.table := by
            refine tblInv_set s.table pos.board (leafEst pos.board) hinv hne hnil hwf
              ?_ (le_refl _) ?_ ?_ ?_
            · exact maxGain_le_leafEst (Board.totalCount pos.board) pos.board
                (le_refl _) hwf
            · omega
            · intro x hx
              exact childBound_action_le hinv pos.board hwf hx
            · intro u hu
              rw [hlook] at hu
              exact absurd hu (by simp)
          have hstep1 : TblStep s.table s1.table := by
            refine tblStep_set _ _ ?_
            intro u hu
            rw [hlook] at hu
            exact absurd hu (by simp)
          by_cases hprune : score + leafEst pos.board ≤ s.bestScore
          · have heq : Sub2.dfs Z s pos score = (leafEst pos.board, s1) := by
              rw [Sub2.dfs, if_neg (by rw [hne]; simp), hlook]
              dsimp only
              rw [if_neg hfin, if_pos hprune]
            rw [heq]
            unfold Sub2DfsOK
            dsimp only
            refine ⟨?_, le_refl _, ?_, hinv1, hstep1, ?_, ?_, ?_, ?_, ?_⟩
            · exact maxGain_le_leafEst (Board.totalCount pos.board) pos.board
                (le_refl _) hwf
            · intro v hv
              rw [hlook] at hv
              exact absurd hv (by simp)
            · intro v hv
              rw [tblSet_self] at hv
              have h2 : leafEst pos.board = v := by injection hv
              exact le_of_eq h2.symm
            · intro hf
              rw [hf] at hne
              exact absurd hne (by simp)
            · intro _ hterm2
              exact absurd hterm2 hnil
            · intro _ _
              rw [tblSet_self]
              rfl
            · intro rep hrep htc2
              show tblSet s.table (boardRep pos.board) (leafEst pos.board) rep
                = s.table rep
              exact tblSet_other _ _ _ hrep
          · set r := Sub2.dfsActs Z s1 pos score (Board.actions pos.board).attach
              with hrdef
            have hacts := hactsPart pos score (Board.actions pos.board).attach htc hwf
              s1 hinv1
            rw [← hrdef] at hacts
            unfold Sub2ActsOK at hacts
            obtain ⟨ha1, ha2, ha3, ha4, ha5, ha6⟩ := hacts
            have ha2b : TblStep s1.table r.2.table := ha2
            have heq : Sub2.dfs Z s pos score
                = (r.1, { r.2 with table := tblSet r.2.table (boardRep pos.board) r.1 }) := by
              rw [Sub2.dfs, if_neg (by rw [hne]; simp), hlook]
              dsimp only
              rw [if_neg hfin, if_neg hprune]
            have hcond0 : Board.totalCount pos.board
                < Board.totalCount (repBoard (boardRep pos.board)) + 2 := by
              have := totalCount_windowEq (windowEq_repBoard pos.board)
              omega
            have hframe_self : r.2.table (boardRep pos.board)
                = some (leafEst pos.board) := by
              have h6 := ha6 (boardRep pos.board) hcond0
              rw [h6]
              exact tblSet_self _ _ _
            have hr1le : r.1 ≤ leafEst pos.board := by
              refine ha5 (leafEst pos.board) ?_
              intro x _
              exact childBound_action_le hinv1 pos.board hwf x.2
            have hselfw : ∀ u, r.2.table (boardRep pos.board) = some u → r.1 ≤ u := by
              intro u hu
              rw [hframe_self] at hu
              have h2 : leafEst pos.board = u := by injection hu
              rw [← h2]
              exact hr1le
            have hAall : ∀ x ∈ Board.actions pos.board,
                scoreErase x.2.card + childBound r.2.table (Board.erase pos.board x.2)
                  ≤ r.1 := by
              intro x hx
              exact ha4 ⟨x, hx⟩ (List.mem_attach _ _)
            have hA2all : ∀ x ∈ Board.actions pos.board,
                scoreErase x.2.card + maxGain (Board.erase pos.board x.2) ≤ r.1 := by
              intro x hx
              exact ha3 ⟨x, hx⟩ (List.mem_attach _ _)
            have hr1max : maxGain pos.board ≤ r.1 :=
              maxGain_le_of_actions pos.board hne hA2all
            have hr1one : 1 ≤ r.1 := one_le_of_actionBound hnil hAall
            have hinvw : TblInv (tblSet r.2.table (boardRep pos.board) r.1) :=
              tblInv_set r.2.table pos.board r.1 ha1 hne hnil hwf hr1max hr1le hr1one
                hAall hselfw
            have hstepw : TblStep r.2.table (tblSet r.2.table (boardRep pos.board) r.1) :=
              tblStep_set _ _ hselfw
            rw [heq]
            unfold Sub2DfsOK
            dsimp only
            refine ⟨hr1max, hr1le, ?_, hinvw, ?_, ?_, ?_, ?_, ?_, ?_⟩
            · intro v hv
              rw [hlook] at hv
              exact absurd hv (by simp)
            · exact tblStep_trans hstep1 (tblStep_trans ha2b hstepw)
            · intro v hv
              rw [tblSet_self] at hv
              have h2 : r.1 = v := by injection hv
              exact le_of_eq h2.symm
            · intro hf
              rw [hf] at hne
              exact absurd hne (by simp)
            · intro _ hterm2
              exact absurd hterm2 hnil
            · intro _ _
              rw [tblSet_self]
              rfl
            · intro rep hrep htc2
              rw [tblSet_other _ _ _ hrep, ha6 rep (by omega)]
              exact tblSet_other _ _ _ hrep
      · obtain ⟨hf1, hf2, hf3, hf4, hf5, hf6, hf7⟩ := hinv _ _ hlook
        have hwin := windowEq_repBoard pos.board
        have hmaxb : maxGain pos.board ≤ gainUb := by
          rw [maxGain_windowEq hwin]
          exact hf1
        have hleb : gainUb ≤ leafEst pos.board := by
          rw [leafEst_windowEq hwin]
          exact hf2
        have hnilb : Board.actions pos.board ≠ [] := by
          rw [actions_windowEq hwin]
          exact hf5
        have hI5b : ∀ x ∈ Board.actions pos.board,
            scoreErase x.2.card + childBound s.table (Board.erase pos.board x.2)
              ≤ gainUb := by
          intro x hx
          have hx2 : x ∈ Board.actions (repBoard (boardRep pos.board)) := by
            rw [← actions_windowEq hwin]
            exact hx
          have hfx := hf7 x hx2
          rw [← erase_windowEq hwin x.2] at hfx
          exact hfx
        by_cases hprune : score + gainUb ≤ s.bestScore
        · have heq : Sub2.dfs Z s pos score = (gainUb, s) := by
            rw [Sub2.dfs, if_neg (by rw [hne]; simp), hlook]
            dsimp only
            rw [if_pos hprune]
          rw [heq]
          unfold Sub2DfsOK
          dsimp only
          refine ⟨hmaxb, hleb, ?_, hinv, tblStep_refl _, ?_, ?_, ?_, ?_,
            fun rep _ _ => rfl⟩
          · intro v hv
            rw [hlook] at hv
            have h2 : gainUb = v := by injection hv
            exact le_of_eq h2
          · intro v hv
            rw [hlook] at hv
            have h2 : gainUb = v := by injection hv
            exact le_of_eq h2.symm
          · intro hf
            rw [hf] at hne
            exact absurd hne (by simp)
          · intro _ hterm2
            exact absurd hterm2 hnilb
          · intro _ _
            rw [hlook]
            rfl
        · set r := Sub2.dfsActs Z s pos score (Board.actions pos.board).attach
            with hrdef
          have hacts := hactsPart pos score (Board.actions pos.board).attach htc hwf
            s hinv
          rw [← hrdef] at hacts
          unfold Sub2ActsOK at hacts
          obtain ⟨ha1, ha2, ha3, ha4, ha5, ha6⟩ := hacts
          have heq : Sub2.dfs Z s pos score
              = (r.1, { r.2 with table := tblSet r.2.table (boardRep pos.board) r.1 }) := by
            rw [Sub2.dfs, if_neg (by rw [hne]; simp), hlook]
            dsimp only
            rw [if_neg hprune]
          have hcond0 : Board.totalCount pos.board
              < Board.totalCount (repBoard (boardRep pos.board)) + 2 := by
            have := totalCount_windowEq (windowEq_repBoard pos.board)
            omega
          have hframe_self : r.2.table (boardRep pos.board) = some gainUb := by
            have h6 := ha6 (boardRep pos.board) hcond0
            rw [h6, hlook]
          have hr1gub : r.1 ≤ gainUb := by
            refine ha5 gainUb ?_
            intro x _
            exact hI5b x.1 x.2
          have hr1le : r.1 ≤ leafEst pos.board := le_trans hr1gub hleb
          have hselfw : ∀ u, r.2.table (boardRep pos.board) = some u → r.1 ≤ u := by
            intro u hu
            rw [hframe_self] at hu
            have h2 : gainUb = u := by injection hu
            rw [← h2]
            exact hr1gub
          have hAall : ∀ x ∈ Board.actions pos.board,
              scoreErase x.2.card + childBound r.2.table (Board.erase pos.board x.2)
                ≤ r.1 := by
            intro x hx
            exact ha4 ⟨x, hx⟩ (List.mem_attach _ _)
          have hA2all : ∀ x ∈ Board.actions pos.board,
              scoreErase x.2.card + maxGain (Board.erase pos.board x.2) ≤ r.1 := by
            intro x hx
            exact ha3 ⟨x, hx⟩ (List.mem_attach _ _)
          have hr1max : maxGain pos.board ≤ r.1 :=
            maxGain_le_of_actions pos.board hne hA2all
          have hr1one : 1 ≤ r.1 := one_le_of_actionBound hnilb hAall
          have hinvw : TblInv (tblSet r.2.table (boardRep pos.board) r.1) :=
            tblInv_set r.2.table pos.board r.1 ha1 hne hnilb hwf hr1max hr1le hr1one
              hAall hselfw
          have hstepw : TblStep r.2.table (tblSet r.2.table (boardRep pos.board) r.1) :=
            tblStep_set _ _ hselfw
          rw [heq]
          unfold Sub2DfsOK
          dsimp only
          refine ⟨hr1max, hr1le, ?_, hinvw, ?_, ?_, ?_, ?_, ?_, ?_⟩
          · intro v hv
            rw [hlook] at hv
            have h2 : gainUb = v := by injection hv
            rw [← h2]
            exact hr1gub
          · exact tblStep_trans ha2 hstepw
          · intro v hv
            rw [tblSet_self] at hv
            have h2 : r.1 = v := by injection hv
            exact le_of_eq h2.symm
          · intro hf
            rw [hf] at hne
            exact absurd hne (by simp)
          · intro _ hterm2
            exact absurd hterm2 hnilb
          · intro _ _
            rw [tblSet_self]
            rfl
          · intro rep hrep htc2
            rw [tblSet_other _ _ _ hrep, ha6 rep (by omega)]

/-- C3: in the sweep (pruning) solver of src/src/solver2.rs, every value
stored in the transposition table is an upper bound on the exact maximum
additional gain obtainable from its position, and within one generation
writes never increase a stored bound: every entry present before a `dfs`
call survives it with a value that did not increase, the value returned
(and written by `set_gain_ub` after expanding all children) is at most the
entry's previous value and at most the initial leaf-estimate value, it
still bounds the exact remaining gain, and the entry finally stored for
the position is at most the returned value. -/
theorem dfs_c3 (Z : Nat → Nat → Nat) (pos : Position) (s : Sub2State) (score : Nat)
    (hwf : Board.valuesWF pos.board = true) (hinv : TblInv s.table) :
    (∀ rep v, (Sub2.dfs Z s pos score).2.table rep = some v →
      maxGain (repBoard rep) ≤ v) ∧
    TblStep s.table (Sub2.dfs Z s pos score).2.table ∧
    (∀ v, s.table (boardRep pos.board) = some v → (Sub2.dfs Z s pos score).1 ≤ v) ∧
    (Sub2.dfs Z s pos score).1 ≤ leafEst pos.board ∧
    maxGain pos.board ≤ (Sub2.dfs Z s pos score).1 ∧
    (∀ v, (Sub2.dfs Z s pos score).2.table (boardRep pos.board) = some v →
      v ≤ (Sub2.dfs Z s pos score).1) := by
  have hok := (sub2_aux Z (Board.totalCount pos.board)).1 pos s score (le_refl _) hwf hinv
  unfold Sub2DfsOK at hok
  obtain ⟨h1, h2, h3, h4, h5, h6, _, _, _, _⟩ := hok
  exact ⟨fun rep v hv => (h4 rep v hv).1, h5, h3, h2, h1, h6⟩

/-- Witness for C3: the single-column board `[1, 1]` (one action erasing
both pieces), searched with best score 0 (no pruning) from the empty
table, through the full theorem. -/
theorem dfs_c3_witness :
    Board.valuesWF
      (Position.new (fun p sq => 1000 * p + sq)
        (fun c => if c = 0 then [1, 1] else [])).board = true ∧
    TblInv (Sub2State.mk 0 none [] tblEmpty).table ∧
    ((∀ rep v, (Sub2.dfs (fun p sq => 1000 * p + sq) (Sub2State.mk 0 none [] tblEmpty)
        (Position.new (fun p sq => 1000 * p + sq)
          (fun c => if c = 0 then [1, 1] else [])) 0).2.table rep = some v →
      maxGain (repBoard rep) ≤ v) ∧
    TblStep (Sub2State.mk 0 none [] tblEmpty).table
      (Sub2.dfs (fun p sq => 1000 * p + sq) (Sub2State.mk 0 none [] tblEmpty)
        (Position.new (fun p sq => 1000 * p + sq)
          (fun c => if c = 0 then [1, 1] else [])) 0).2.table ∧
    (∀ v, (Sub2State.mk 0 none [] tblEmpty).table
        (boardRep (Position.new (fun p sq => 1000 * p + sq)
          (fun c => if c = 0 then [1, 1] else [])).board) = some v →
      (Sub2.dfs (fun p sq => 1000 * p + sq) (Sub2State.mk 0 none [] tblEmpty)
        (Position.new (fun p sq => 1000 * p + sq)
          (fun c => if c = 0 then [1, 1] else [])) 0).1 ≤ v) ∧
    (Sub2.dfs (fun p sq => 1000 * p + sq) (Sub2State.mk 0 none [] tblEmpty)
        (Position.new (fun p sq => 1000 * p + sq)
          (fun c => if c = 0 then [1, 1] else [])) 0).1
      ≤ leafEst (Position.new (fun p sq => 1000 * p + sq)
          (fun c => if c = 0 then [1, 1] else [])).board ∧
    maxGain (Position.new (fun p sq => 1000 * p + sq)
        (fun c => if c = 0 then [1, 1] else [])).board
      ≤ (Sub2.dfs (fun p sq => 1000 * p + sq) (Sub2State.mk 0 none [] tblEmpty)
        (Position.new (fun p sq => 1000 * p + sq)
          (fun c => if c = 0 then [1, 1] else [])) 0).1 ∧
    (∀ v, (Sub2.dfs (fun p sq => 1000 * p + sq) (Sub2State.mk 0 none [] tblEmpty)
        (Position.new (fun p sq => 1000 * p + sq)
          (fun c => if c = 0 then [1, 1] else [])) 0).2.table
        (boardRep (Position.new (fun p sq => 1000 * p + sq)
          (fun c => if c = 0 then [1, 1] else [])).board) = some v →
      v ≤ (Sub2.dfs (fun p sq => 1000 * p + sq) (Sub2State.mk 0 none [] tblEmpty)
        (Position.new (fun p sq => 1000 * p + sq)
          (fun c => if c = 0 then [1, 1] else [])) 0).1)) :=
  ⟨by decide, tblEmpty_inv,
    dfs_c3 (fun p sq => 1000 * p + sq)
      (Position.new (fun p sq => 1000 * p + sq) (fun c => if c = 0 then [1, 1] else []))
      (Sub2State.mk 0 none [] tblEmpty) 0 (by decide) tblEmpty_inv⟩

end SameGame
